import Mathlib

/-!
# Verification of the balance aggregation core of the `monitor` repository

This file gives a shallow embedding, in Lean 4, of the balance
normalization / price resolution core of the repository:

* `src/ws.js`   — the WebSocket/cache variant (`processBalanceData`,
  `compileAndUpdateBalances`, `fetchCompleteBalance`,
  `fetchPriceFromAlternativeExchange`);
* `src/rest.js` — the REST variant (`processBalanceData`,
  `fetchCompleteBalance`, `fetchPriceFromAlternativeExchange`);
* `src/unnamed/part_000` — a revision of `ws.js` with fund-account
  (supplementary balance) logic (`monitorBalances` fund flag,
  `processBalanceData`, `fetchGateioEarnBalance`).

Modelling conventions:

* JS objects used as string-keyed dictionaries become association lists
  (`JObj`), preserving insertion order exactly as JS `Object.entries`
  iteration does; keys of a real JS object are unique, which appears as
  `Nodup` hypotheses where a theorem needs it.
* JS numbers become `ℚ`.  The only place where a non-finite float could
  arise in the sources is `1 / priceValue` when a ticker reports a price
  of exactly `0` (JS yields `Infinity`); in this model `(1 : ℚ) / 0 = 0`,
  which the downstream `if (price)` truthiness guard then drops.  No
  theorem below distinguishes the two behaviours.
* Fallible calls (`fetchBalance`, `fetchTicker`, `fetchPositions`, …)
  are modelled as `Option`-valued environment fields; `none` means the
  call throws.
-/

set_option autoImplicit false

namespace Monitor

/-! ## JS objects as ordered association lists -/

/-- A JS object used as a string-keyed dictionary: an insertion-ordered
association list. -/
abbrev JObj (α : Type) := List (String × α)

/-- `o[k]`: the value at key `k`, or `none` when absent. -/
def jget {α : Type} : JObj α → String → Option α
  | [], _ => none
  | p :: tl, key => if p.1 = key then some p.2 else jget tl key

/-- `o[k] = v`: replace the first entry with key `k` in place, or append a
new entry at the end (JS property assignment semantics). -/
def jset {α : Type} : JObj α → String → α → JObj α
  | [], key, val => [(key, val)]
  | p :: tl, key, val =>
      if p.1 = key then (p.1, val) :: tl else p :: jset tl key val

/-- `delete o[k]`: remove the entry with key `k` (the first one; a real JS
object has at most one). -/
def jdel {α : Type} : JObj α → String → JObj α
  | [], _ => []
  | p :: tl, key => if p.1 = key then tl else p :: jdel tl key

/-- The keys of a JS object, in order. -/
def jkeys {α : Type} (o : JObj α) : List String := o.map Prod.fst

/-! ## Tickers, truthiness, market-pair candidates -/

/-- A ticker as consumed by the sources: only `last` and `close` are read;
`none` models an absent/`undefined` field. -/
structure Ticker where
  last : Option ℚ
  close : Option ℚ
deriving DecidableEq

/-- `ticker.last || ticker.close`: `last` when present and nonzero
(JS truthiness), otherwise `close` (which may itself be absent). -/
def tickerPrice (t : Ticker) : Option ℚ :=
  match t.last with
  | some q => if q = 0 then t.close else some q
  | none => t.close

/-- JS truthiness of a number that may be `undefined`. -/
def truthyQ : Option ℚ → Bool
  | some q => q != 0
  | none => false

/-- `1 / priceValue` applied to a possibly-`undefined` value.  On
`undefined` JS yields `NaN` (falsy downstream), modelled as `none`.
On `0` JS yields `Infinity`; here `1 / 0 = 0`, which the downstream
truthiness guard drops — see the header comment. -/
def invertOpt : Option ℚ → Option ℚ := Option.map (fun q => 1 / q)

/-- The ordered candidate pair list built identically at ws.js:140,
rest.js:93, part_000:147 (and in the alternate-exchange fetchers). -/
def possiblePairs (currency base : String) : List String :=
  [currency ++ "/" ++ base, base ++ "/" ++ currency,
   currency ++ "/USD", "USD/" ++ currency,
   currency ++ "/USDT", "USDT/" ++ currency]

/-- JS `String.prototype.startsWith` (the pair names here are ASCII, so
it coincides with character-list prefix testing). -/
def strStartsWith (s pre : String) : Bool := pre.data.isPrefixOf s.data

/-- JS `String.prototype.endsWith`. -/
def strEndsWith (s post : String) : Bool := post.data.isSuffixOf s.data

/-- `invertPrice` as computed from a matched pair (ws.js:152 etc.):
the pair string starts with the valuation currency, `USD/`, or `USDT/`. -/
def invertFor (base pair : String) : Bool :=
  strStartsWith pair (base ++ "/") || strStartsWith pair "USD/" || strStartsWith pair "USDT/"

/-- The scan over `possiblePairs` for the first pair present in an
exchange's market set (ws.js:149-155 etc.). -/
def findMarket (markets : String → Bool) (currency base : String) : Option String :=
  (possiblePairs currency base).find? markets

/-! ## Exchange environments -/

/-- An open position as read by the sources. -/
structure Position where
  symbol : String
  contracts : ℚ
  unrealizedPnl : Option ℚ
deriving DecidableEq

/-- `position.unrealizedPnl || 0` (ws.js:213, rest.js:142, part_000:219). -/
def upnl (p : Position) : ℚ :=
  match p.unrealizedPnl with
  | some q => if q = 0 then 0 else q
  | none => 0

/-- The primary exchange as seen by one normalization pass: market set,
ticker oracle (`none` = the fetch throws), and position capability. -/
structure Exchange where
  markets : String → Bool
  fetchTicker : String → Option Ticker
  hasFetchPositions : Bool
  fetchPositionsResult : Option (List Position)

/-- One alternate public exchange as seen by
`fetchPriceFromAlternativeExchange`: `loadOk = false` models the
constructor or `loadMarkets` throwing. -/
structure AltExchange where
  loadOk : Bool
  markets : String → Bool
  fetchTicker : String → Option Ticker

/-! ## Numeric thresholds -/

/-- The `$0.01` dust threshold (ws.js:190, part_000:196). -/
def dustMin : ℚ := 1 / 100

/-- The `1e-6` cache threshold of the WS variants (ws.js:122). -/
def wsEps : ℚ := 1 / 1000000

/-- The `1e-8` amount threshold of the REST variant (rest.js:85). -/
def restEps : ℚ := 1 / 100000000

/-! ## Assets -/

inductive AssetType where
  | spot
  | futures
deriving DecidableEq

/-- One valued holding as stored in a group's `balances` mapping. -/
structure Asset where
  symbol : String
  amount : ℚ
  baseValue : ℚ
  type : AssetType
deriving DecidableEq

/-- The accumulator loop of
`Object.values(assets).reduce((acc, curr) => acc + curr.baseValue, 0)`. -/
def totalLoop : ℚ → JObj Asset → ℚ
  | acc, [] => acc
  | acc, p :: tl => totalLoop (acc + p.2.baseValue) tl

/-- `Object.values(assets).reduce((acc, curr) => acc + curr.baseValue, 0)`
(ws.js:241, rest.js:160, part_000:248). -/
def totalOf (assets : JObj Asset) : ℚ :=
  totalLoop 0 assets

/-- The mathematical sum of the base values of an asset mapping, stated
independently of the fold used by the code. -/
def baseValueSum (assets : JObj Asset) : ℚ :=
  (assets.map (fun p => p.2.baseValue)).sum

/-- A group's published view after a pass of the REST variant. -/
structure GroupView where
  balances : JObj Asset
  total : ℚ
deriving DecidableEq

/-- A group's published view plus the connection's cache after a pass of
the WS variants. -/
structure PassResult where
  cache : JObj ℚ
  balances : JObj Asset
  total : ℚ
deriving DecidableEq

/-- One Coinbase sub-account as read by ws.js `fetchCompleteBalance`
(`account.code`, `account.info.available_balance.value`,
`account.info.hold.value`). -/
structure CoinbaseAccount where
  code : String
  available : ℚ
  hold : ℚ

/-- The snapshot-fetch environment of `fetchCompleteBalance`: every
underlying call is `Option`-valued, `none` meaning the call throws. -/
structure SnapshotEnv where
  id : String
  fetchBalancePlain : Option (JObj ℚ)
  fetchBalanceSwap : Option (JObj ℚ)
  fetchBalanceCash : Option (JObj ℚ)
  fetchAccountsResult : Option (List CoinbaseAccount)

/-- The per-currency aggregation of Coinbase sub-accounts
(ws.js:85-99): `totalBalances[code] += available + hold`, starting from a
falsy (hence `0`) entry. -/
def coinbaseLoop : JObj ℚ → List CoinbaseAccount → JObj ℚ
  | t, [] => t
  | t, a :: tl => coinbaseLoop (jset t a.code ((jget t a.code).getD 0 + (a.available + a.hold))) tl

def coinbaseAggregate (accounts : List CoinbaseAccount) : JObj ℚ :=
  coinbaseLoop [] accounts

/-- `{...balanceData.total, ...cashBalance.total}` (rest.js:58): spread
merge, later keys overriding in place or appending. -/
def jmerge (a : JObj ℚ) : JObj ℚ → JObj ℚ
  | [] => a
  | p :: tl => jmerge (jset a p.1 p.2) tl

namespace ws

/-- One alternate exchange's attempt inside
`fetchPriceFromAlternativeExchange` (ws.js:343-368, part_000:424-449):
`none` = this exchange threw or had no matching pair (continue to the
next), `some pv` = the (possibly inverted, possibly `undefined`) price
returned for the first matching pair. -/
def altAttempt (alt : AltExchange) (currency base : String) : Option (Option ℚ) :=
  if alt.loadOk then
    match findMarket alt.markets currency base with
    | some pair =>
      match alt.fetchTicker pair with
      | some t =>
        let pv := tickerPrice t
        some (if invertFor base pair then invertOpt pv else pv)
      | none => none
    | none => none
  else none

/-- `fetchPriceFromAlternativeExchange` of ws.js:341-371 (identical in
part_000:421-452): first successful attempt across the fixed alternate
list; outer `none` = the function returns `null`. -/
def fetchPriceFromAlternativeExchange (alts : List AltExchange) (currency base : String) :
    Option (Option ℚ) :=
  alts.findSome? (fun alt => altAttempt alt currency base)

/-- The per-currency price resolution inlined in `processBalanceData`
(ws.js:136-184) and `compileAndUpdateBalances` (ws.js:266-314):
`some q` iff the loop body reaches `baseValue = amount * q` (so `q` is
truthy), `none` iff the loop `continue`s for this currency. -/
def resolveSpotPrice (ex : Exchange) (alts : List AltExchange) (base currency : String) :
    Option ℚ :=
  let price : Option ℚ :=
    match findMarket ex.markets currency base with
    | none => (fetchPriceFromAlternativeExchange alts currency base).join
    | some pair =>
      match ex.fetchTicker pair with
      | some t =>
        let pv := tickerPrice t
        if invertFor base pair then invertOpt pv else pv
      | none => (fetchPriceFromAlternativeExchange alts currency base).join
  match price with
  | some q => if q = 0 then none else some q
  | none => none

/-- The `baseValue` computed for one cached currency (ws.js:130-187):
the amount itself for the valuation currency, `amount * price` otherwise,
`none` when the currency is skipped for this pass. -/
def spotBaseValue (ex : Exchange) (alts : List AltExchange) (base currency : String)
    (amount : ℚ) : Option ℚ :=
  if currency = base then some amount
  else (resolveSpotPrice ex alts base currency).map (fun p => amount * p)

/-- One iteration of the cache loop (ws.js:130-201): the asset stored for
this currency, or `none` when skipped (unresolvable price or dust). -/
def spotStep (ex : Exchange) (alts : List AltExchange) (base currency : String)
    (amount : ℚ) : Option Asset :=
  match spotBaseValue ex alts base currency amount with
  | some bv => if |bv| < dustMin then none else some ⟨currency, amount, bv, .spot⟩
  | none => none

/-- The cache loop of ws.js:129-201 / part_000:137-207 as a recursion over
the remaining entries, carrying the `newAssets` accumulator. -/
def spotLoop (ex : Exchange) (alts : List AltExchange) (base : String) :
    List (String × ℚ) → JObj Asset → JObj Asset
  | [], acc => acc
  | p :: tl, acc =>
    match spotStep ex alts base p.1 p.2 with
    | some a => spotLoop ex alts base tl (jset acc p.1 a)
    | none => spotLoop ex alts base tl acc

/-- The whole cache loop (ws.js:129-201, part_000:137-207): builds the
fresh `newAssets` object from the cache contents. -/
def spotAssets (ex : Exchange) (alts : List AltExchange) (base : String)
    (cache : JObj ℚ) : JObj Asset :=
  spotLoop ex alts base cache []

/-- The futures-position loop (ws.js:207-231, part_000:213-236): a ticker
throw aborts the remaining positions (the surrounding `try` catches it)
but keeps the assets added so far. -/
def positionsLoop (ex : Exchange) : List Position → JObj Asset → JObj Asset
  | [], acc => acc
  | p :: tl, acc =>
    if p.contracts = 0 then positionsLoop ex tl acc
    else if ex.markets p.symbol then
      match ex.fetchTicker p.symbol with
      | none => acc
      | some _ =>
        if |upnl p| < dustMin then positionsLoop ex tl acc
        else positionsLoop ex tl (jset acc p.symbol ⟨p.symbol, p.contracts, upnl p, .futures⟩)
    else positionsLoop ex tl acc

/-- The guarded futures section of ws.js `processBalanceData`
(ws.js:203-235): runs only when the exchange has `fetchPositions`; a
throwing `fetchPositions` is caught and leaves the assets unchanged. -/
def includePositions (ex : Exchange) (assets : JObj Asset) : JObj Asset :=
  if ex.hasFetchPositions then
    match ex.fetchPositionsResult with
    | some ps => positionsLoop ex ps assets
    | none => assets
  else assets

/-- One entry of the cache-merge loop (ws.js:121-127): a truthy amount
above `1e-6` in magnitude overwrites the cache entry; otherwise a truthy
cached value is deleted. -/
def cacheStep (c : JObj ℚ) (currency : String) (amount : ℚ) : JObj ℚ :=
  if amount ≠ 0 ∧ |amount| > wsEps then jset c currency amount
  else if truthyQ (jget c currency) then jdel c currency
  else c

/-- The cache-merge loop (ws.js:120-127, identical at ws.js:248-255 and
part_000:128-135/276-283). -/
def updateCache : JObj ℚ → JObj ℚ → JObj ℚ
  | cache, [] => cache
  | cache, p :: tl => updateCache (cacheStep cache p.1 p.2) tl

/-- Valuing the whole cache: spot loop then futures section. -/
def valuation (ex : Exchange) (alts : List AltExchange) (base : String)
    (cache : JObj ℚ) : JObj Asset :=
  includePositions ex (spotAssets ex alts base cache)

/-- `processBalanceData` of ws.js:114-242: merge the snapshot into the
cache, revalue the cache (spot + futures), replace the group's balances
wholesale and recompute the total. -/
def processBalanceData (ex : Exchange) (alts : List AltExchange) (base : String)
    (snapshotTotal cache : JObj ℚ) : PassResult :=
  let cache2 := updateCache cache snapshotTotal
  let assets := valuation ex alts base cache2
  ⟨cache2, assets, totalOf assets⟩

/-- `compileAndUpdateBalances` of ws.js:245-338: identical to
`processBalanceData` except that it has no futures section. -/
def compileAndUpdateBalances (ex : Exchange) (alts : List AltExchange) (base : String)
    (snapshotTotal cache : JObj ℚ) : PassResult :=
  let cache2 := updateCache cache snapshotTotal
  let assets := spotAssets ex alts base cache2
  ⟨cache2, assets, totalOf assets⟩

/-- `fetchCompleteBalance` of ws.js:78-111: per-exchange-id branch, any
throw caught and degraded to the empty `{total: {}}` snapshot. -/
def fetchCompleteBalance (env : SnapshotEnv) : JObj ℚ :=
  let attempt : Option (JObj ℚ) :=
    if env.id = "coinbase" then
      match env.fetchBalancePlain, env.fetchAccountsResult with
      | some _, some accs => some (coinbaseAggregate accs)
      | _, _ => none
    else if env.id = "gateio" then env.fetchBalanceSwap
    else env.fetchBalancePlain
  attempt.getD []

end ws

namespace rest

/-- One alternate exchange's attempt in rest.js:166-184: unlike the WS
variant, the returned price is `ticker.last || ticker.close` with **no**
inversion (rest.js:176-181). -/
def altAttempt (alt : AltExchange) (currency base : String) : Option (Option ℚ) :=
  if alt.loadOk then
    match findMarket alt.markets currency base with
    | some pair =>
      match alt.fetchTicker pair with
      | some t => some (tickerPrice t)
      | none => none
    | none => none
  else none

/-- `fetchPriceFromAlternativeExchange` of rest.js:164-187. -/
def fetchPriceFromAlternativeExchange (alts : List AltExchange) (currency base : String) :
    Option (Option ℚ) :=
  alts.findSome? (fun alt => altAttempt alt currency base)

/-- The USDC move-to-front step of rest.js:78-82. -/
def reorderUSDC (t : JObj ℚ) : JObj ℚ :=
  match jget t "USDC" with
  | some v => if v = 0 then t else ("USDC", v) :: jdel t "USDC"
  | none => t

/-- One iteration of the REST spot loop (rest.js:84-131).  Outer `none` =
the primary `fetchTicker` threw (rest.js:112 is not wrapped in a `try`,
so the exception aborts the whole pass); `some none` = this currency is
skipped; `some (some a)` = asset `a` is stored.  Note: no dust filter. -/
def spotStep (ex : Exchange) (alts : List AltExchange) (base currency : String)
    (amount : ℚ) : Option (Option Asset) :=
  if amount = 0 ∨ ¬(|amount| > restEps) then some none
  else if currency = base then some (some ⟨currency, amount, amount, .spot⟩)
  else
    match findMarket ex.markets currency base with
    | none =>
      match (fetchPriceFromAlternativeExchange alts currency base).join with
      | some q =>
        if q = 0 then some none else some (some ⟨currency, amount, amount * q, .spot⟩)
      | none => some none
    | some pair =>
      match ex.fetchTicker pair with
      | none => none
      | some t =>
        let pv0 := tickerPrice t
        match (if invertFor base pair then invertOpt pv0 else pv0) with
        | some q =>
          if q = 0 then some none else some (some ⟨currency, amount, amount * q, .spot⟩)
        | none => some none

/-- The REST spot loop over the snapshot entries, propagating a ticker
throw as `none`. -/
def spotLoop (ex : Exchange) (alts : List AltExchange) (base : String) :
    List (String × ℚ) → JObj Asset → Option (JObj Asset)
  | [], acc => some acc
  | p :: tl, acc =>
    match spotStep ex alts base p.1 p.2 with
    | none => none
    | some none => spotLoop ex alts base tl acc
    | some (some a) => spotLoop ex alts base tl (jset acc p.1 a)

/-- The REST futures loop (rest.js:136-154): no market-existence check,
no dust filter; a ticker throw is caught by the `try` around the whole
loop, keeping the assets added so far. -/
def positionsLoop (ex : Exchange) : List Position → JObj Asset → JObj Asset
  | [], acc => acc
  | p :: tl, acc =>
    if p.contracts = 0 then positionsLoop ex tl acc
    else
      match ex.fetchTicker p.symbol with
      | none => acc
      | some _ =>
        positionsLoop ex tl (jset acc p.symbol ⟨p.symbol, p.contracts, upnl p, .futures⟩)

/-- The guarded futures section of rest.js:134-158. -/
def includePositions (ex : Exchange) (assets : JObj Asset) : JObj Asset :=
  if ex.hasFetchPositions then
    match ex.fetchPositionsResult with
    | some ps => positionsLoop ex ps assets
    | none => assets
  else assets

/-- `processBalanceData` of rest.js:71-161: no cache; `none` = the pass
aborted on an uncaught spot-ticker throw (in which case rest.js leaves
the group total stale). -/
def processBalanceData (ex : Exchange) (alts : List AltExchange) (base : String)
    (snapshotTotal : JObj ℚ) : Option GroupView :=
  match spotLoop ex alts base (reorderUSDC snapshotTotal) [] with
  | none => none
  | some assets0 =>
    let assets := includePositions ex assets0
    some ⟨assets, totalOf assets⟩

/-- `fetchCompleteBalance` of rest.js:53-68: the Coinbase branch merges
the cash-product balance over the plain one; any throw is caught and
degraded to the empty `{total: {}}` snapshot. -/
def fetchCompleteBalance (env : SnapshotEnv) : JObj ℚ :=
  let attempt : Option (JObj ℚ) :=
    if env.id = "coinbase" then
      match env.fetchBalancePlain, env.fetchBalanceCash with
      | some t, some c => some (jmerge t c)
      | _, _ => none
    else if env.id = "gateio" then env.fetchBalanceSwap
    else env.fetchBalancePlain
  attempt.getD []

end rest

namespace fund

/-- The connection configuration fields read by part_000's
`monitorBalances` fund-flag check (part_000:25). -/
structure Account where
  n : String
  defaultType : Option String

/-- `account.n.endsWith(' Fund') && account.options?.defaultType === 'swap'`
(part_000:25-27). -/
def isFundAccount (a : Account) : Bool :=
  strEndsWith a.n " Fund" && a.defaultType == some "swap"

/-- One lending entry of the Gate.io earn response (part_000:462-465). -/
structure Lend where
  currency : String
  amount : ℚ

/-- Environment of `fetchGateioEarnBalance`: `loadOk = false` models
`loadMarkets` throwing; `lendsResult = none` models
`privateEarnGetUniLends` throwing; `tickerLast p = none` models
`fetchTicker p` throwing.  (A ticker that succeeds without a `last`
field would make JS add `NaN`; we conflate it with the thrown case —
no claim touches that corner.) -/
structure EarnEnv where
  loadOk : Bool
  lendsResult : Option (List Lend)
  tickerLast : String → Option ℚ

/-- The lend-summing loop of part_000:462-478: positive amounts in
USDT/USDC count directly, others via their `{currency}/USDT` ticker,
skipping a lend whose ticker fetch fails. -/
def earnLoop (env : EarnEnv) : ℚ → List Lend → ℚ
  | acc, [] => acc
  | acc, l :: tl =>
    if l.amount > 0 then
      if l.currency = "USDT" ∨ l.currency = "USDC" then earnLoop env (acc + l.amount) tl
      else
        match env.tickerLast (l.currency ++ "/USDT") with
        | some q => earnLoop env (acc + l.amount * q) tl
        | none => earnLoop env acc tl
    else earnLoop env acc tl

/-- `fetchGateioEarnBalance` of part_000:455-485: sums lends in USDT
terms, skipping unpriceable assets; returns 0 on any outer failure. -/
def fetchGateioEarnBalance (env : EarnEnv) : ℚ :=
  if env.loadOk then
    match env.lendsResult with
    | some lends =>
      earnLoop env 0 lends
    | none => 0
  else 0

/-- The part_000 connection environment: the primary exchange plus the
fields the fund-account logic reads.  `spotFetchResult = none` models
`fetchBalance({type:'spot'})` throwing. -/
structure FundExchange where
  core : Exchange
  id : String
  defaultType : Option String
  isFundAccount : Bool
  spotFetchResult : Option (JObj ℚ)
  earnEnv : EarnEnv

/-- The futures section of part_000:209-244: additionally guarded by
`options?.defaultType === 'swap'`. -/
def includePositions (fx : FundExchange) (assets : JObj Asset) : JObj Asset :=
  if fx.core.hasFetchPositions ∧ fx.defaultType = some "swap" then
    match fx.core.fetchPositionsResult with
    | some ps => ws.positionsLoop fx.core ps assets
    | none => assets
  else assets

/-- The group record after a part_000 pass: `spotBalance`/`earnBalance`
are `some _` exactly when the pass attached them. -/
structure FundResult where
  cache : JObj ℚ
  balances : JObj Asset
  total : ℚ
  spotBalance : Option ℚ
  earnBalance : Option ℚ
deriving DecidableEq

/-- `processBalanceData` of part_000:122-270: the cache merge and spot
loop are identical to ws.js (ws.updateCache / ws.spotAssets); the futures
section carries the extra swap guard; a fund account then attaches
`spotBalance` (`spotData.total[base] || 0`, `0` on a caught throw) and
`earnBalance` (Gate.io only, `0` otherwise or on failure). -/
def processBalanceData (fx : FundExchange) (alts : List AltExchange) (base : String)
    (snapshotTotal cache : JObj ℚ) : FundResult :=
  let cache2 := ws.updateCache cache snapshotTotal
  let assets := includePositions fx (ws.spotAssets fx.core alts base cache2)
  let total := totalOf assets
  if fx.isFundAccount then
    let sb : ℚ :=
      match fx.spotFetchResult with
      | some st =>
        match jget st base with
        | some v => if v = 0 then 0 else v
        | none => 0
      | none => 0
    let eb : ℚ := if fx.id = "gateio" then fetchGateioEarnBalance fx.earnEnv else 0
    ⟨cache2, assets, total, some sb, some eb⟩
  else ⟨cache2, assets, total, none, none⟩

end fund

/-! ## Association-list lemmas -/

section JObjLemmas

variable {α : Type}

theorem jget_jset_self (o : JObj α) (k : String) (v : α) :
    jget (jset o k v) k = some v := by
  induction o with
  | nil => rw [jset, jget, if_pos rfl]
  | cons p tl ih =>
    by_cases h : p.1 = k
    · rw [jset, if_pos h, jget, if_pos h]
    · rw [jset, if_neg h, jget, if_neg h, ih]

theorem jget_jset_ne (o : JObj α) {k k' : String} (v : α) (h : k' ≠ k) :
    jget (jset o k v) k' = jget o k' := by
  induction o with
  | nil => simp [jset, jget, Ne.symm h]
  | cons p tl ih =>
    by_cases hp : p.1 = k
    · have hne : p.1 ≠ k' := fun he => h (he.symm.trans hp)
      rw [jset, if_pos hp, jget, jget, if_neg hne, if_neg hne]
    · rw [jset, if_neg hp, jget, jget, ih]

theorem jget_jdel_ne (o : JObj α) {k k' : String} (h : k' ≠ k) :
    jget (jdel o k) k' = jget o k' := by
  induction o with
  | nil => rw [jdel]
  | cons p tl ih =>
    by_cases hp : p.1 = k
    · have hne : p.1 ≠ k' := fun he => h (he.symm.trans hp)
      rw [jdel, if_pos hp, jget, if_neg hne]
    · rw [jdel, if_neg hp, jget, jget, ih]

theorem jget_jset_cases (o : JObj α) {k k' : String} {v a : α}
    (h : jget (jset o k v) k' = some a) : (k' = k ∧ a = v) ∨ jget o k' = some a := by
  by_cases he : k' = k
  · subst he
    rw [jget_jset_self] at h
    exact Or.inl ⟨rfl, (Option.some_injective _ h).symm⟩
  · rw [jget_jset_ne o v he] at h
    exact Or.inr h

theorem mem_jkeys_of_jget {o : JObj α} {k : String} {v : α}
    (h : jget o k = some v) : k ∈ jkeys o := by
  induction o with
  | nil => exact absurd h (by rw [jget]; exact Option.noConfusion)
  | cons p tl ih =>
    rw [jget] at h
    by_cases hp : p.1 = k
    · exact List.mem_cons.mpr (Or.inl hp.symm)
    · rw [if_neg hp] at h
      exact List.mem_cons.mpr (Or.inr (ih h))

theorem jget_isSome_of_mem_jkeys {o : JObj α} {k : String}
    (h : k ∈ jkeys o) : ∃ v, jget o k = some v := by
  induction o with
  | nil => exact absurd h (List.not_mem_nil _)
  | cons p tl ih =>
    by_cases hp : p.1 = k
    · exact ⟨p.2, by rw [jget, if_pos hp]⟩
    · rw [jkeys, List.map_cons] at h
      rcases List.mem_cons.mp h with h | h
      · exact absurd h.symm hp
      · rcases ih h with ⟨v, hv⟩
        exact ⟨v, by rw [jget, if_neg hp]; exact hv⟩

theorem jget_eq_none_of_not_mem {o : JObj α} {k : String}
    (h : k ∉ jkeys o) : jget o k = none := by
  induction o with
  | nil => rfl
  | cons p tl ih =>
    rw [jkeys, List.map_cons] at h
    rw [jget, if_neg (fun he => h (List.mem_cons.mpr (Or.inl he.symm)))]
    exact ih (fun hm => h (List.mem_cons.mpr (Or.inr hm)))

theorem jget_eq_of_mem_nodup {o : JObj α} {k : String} {v : α}
    (hnd : (jkeys o).Nodup) (h : (k, v) ∈ o) : jget o k = some v := by
  induction o with
  | nil => exact absurd h (List.not_mem_nil _)
  | cons p tl ih =>
    rw [jkeys, List.map_cons, List.nodup_cons] at hnd
    rcases List.mem_cons.mp h with h | h
    · rw [jget, ← h]
      exact if_pos rfl
    · have hk : k ∈ jkeys tl := List.mem_map.mpr ⟨(k, v), h, rfl⟩
      rw [jget, if_neg (fun he => hnd.1 (by rw [he]; exact hk))]
      exact ih hnd.2 h

theorem jkeys_jset_sub (o : JObj α) (k : String) (v : α) :
    ∀ x ∈ jkeys (jset o k v), x ∈ jkeys o ∨ x = k := by
  induction o with
  | nil =>
    intro x hx
    rw [jset, jkeys] at hx
    exact Or.inr (by simpa using hx)
  | cons p tl ih =>
    intro x hx
    by_cases hp : p.1 = k
    · rw [jset, if_pos hp, jkeys, List.map_cons] at hx
      rcases List.mem_cons.mp hx with hx | hx
      · exact Or.inl (List.mem_cons.mpr (Or.inl hx))
      · exact Or.inl (List.mem_cons.mpr (Or.inr hx))
    · rw [jset, if_neg hp, jkeys, List.map_cons] at hx
      rcases List.mem_cons.mp hx with hx | hx
      · exact Or.inl (List.mem_cons.mpr (Or.inl hx))
      · rcases ih x hx with h | h
        · exact Or.inl (List.mem_cons.mpr (Or.inr h))
        · exact Or.inr h

theorem nodup_jkeys_jset {o : JObj α} (k : String) (v : α)
    (hnd : (jkeys o).Nodup) : (jkeys (jset o k v)).Nodup := by
  induction o with
  | nil => simp [jset, jkeys]
  | cons p tl ih =>
    rw [jkeys, List.map_cons, List.nodup_cons] at hnd
    by_cases hp : p.1 = k
    · rw [jset, if_pos hp, jkeys, List.map_cons, List.nodup_cons]
      exact hnd
    · rw [jset, if_neg hp, jkeys, List.map_cons, List.nodup_cons]
      refine ⟨fun hmem => ?_, ih hnd.2⟩
      rcases jkeys_jset_sub tl k v p.1 hmem with h | h
      · exact hnd.1 h
      · exact hp h

theorem jkeys_jdel_sub (o : JObj α) (k : String) :
    ∀ x ∈ jkeys (jdel o k), x ∈ jkeys o := by
  induction o with
  | nil => intro x hx; rw [jdel] at hx; exact hx
  | cons p tl ih =>
    intro x hx
    by_cases hp : p.1 = k
    · rw [jdel, if_pos hp] at hx
      exact List.mem_cons.mpr (Or.inr hx)
    · rw [jdel, if_neg hp, jkeys, List.map_cons] at hx
      rcases List.mem_cons.mp hx with hx | hx
      · exact List.mem_cons.mpr (Or.inl hx)
      · exact List.mem_cons.mpr (Or.inr (ih x hx))

theorem nodup_jkeys_jdel {o : JObj α} (k : String)
    (hnd : (jkeys o).Nodup) : (jkeys (jdel o k)).Nodup := by
  induction o with
  | nil => simp [jdel, jkeys]
  | cons p tl ih =>
    rw [jkeys, List.map_cons, List.nodup_cons] at hnd
    by_cases hp : p.1 = k
    · rw [jdel, if_pos hp]
      exact hnd.2
    · rw [jdel, if_neg hp, jkeys, List.map_cons, List.nodup_cons]
      exact ⟨fun hmem => hnd.1 (jkeys_jdel_sub tl k p.1 hmem), ih hnd.2⟩

theorem jget_jdel_self {o : JObj α} {k : String}
    (hnd : (jkeys o).Nodup) : jget (jdel o k) k = none := by
  induction o with
  | nil => rfl
  | cons p tl ih =>
    rw [jkeys, List.map_cons, List.nodup_cons] at hnd
    by_cases hp : p.1 = k
    · rw [jdel, if_pos hp]
      exact jget_eq_none_of_not_mem (hp ▸ hnd.1)
    · rw [jdel, if_neg hp, jget, if_neg hp]
      exact ih hnd.2

end JObjLemmas

/-- `totalLoop` is the initial value plus the mathematical sum. -/
theorem totalLoop_eq (l : JObj Asset) : ∀ init : ℚ, totalLoop init l = init + baseValueSum l := by
  induction l with
  | nil => intro init; simp [totalLoop, baseValueSum]
  | cons p tl ih =>
    intro init
    rw [totalLoop, ih, baseValueSum, baseValueSum]
    simp
    ring

/-- `totalOf` computes exactly the sum of the base values. -/
theorem totalOf_eq_baseValueSum (l : JObj Asset) : totalOf l = baseValueSum l := by
  rw [totalOf, totalLoop_eq]
  simp

/-! ## Cache-merge lemmas -/

theorem jget_cacheStep_ne (c : JObj ℚ) {cur k : String} (amt : ℚ) (h : cur ≠ k) :
    jget (ws.cacheStep c cur amt) k = jget c k := by
  unfold ws.cacheStep
  by_cases h1 : amt ≠ 0 ∧ |amt| > wsEps
  · rw [if_pos h1, jget_jset_ne c amt (Ne.symm h)]
  · rw [if_neg h1]
    by_cases h2 : truthyQ (jget c cur)
    · rw [if_pos h2, jget_jdel_ne c (Ne.symm h)]
    · rw [if_neg h2]

theorem nodup_cacheStep {c : JObj ℚ} (cur : String) (amt : ℚ)
    (hnd : (jkeys c).Nodup) : (jkeys (ws.cacheStep c cur amt)).Nodup := by
  unfold ws.cacheStep
  by_cases h1 : amt ≠ 0 ∧ |amt| > wsEps
  · rw [if_pos h1]
    exact nodup_jkeys_jset cur amt hnd
  · rw [if_neg h1]
    by_cases h2 : truthyQ (jget c cur)
    · rw [if_pos h2]
      exact nodup_jkeys_jdel cur hnd
    · rw [if_neg h2]
      exact hnd

theorem jget_updateCache_not_reported {s : JObj ℚ} {k : String}
    (h : ∀ p ∈ s, p.1 ≠ k) :
    ∀ c : JObj ℚ, jget (ws.updateCache c s) k = jget c k := by
  induction s with
  | nil => intro c; rw [ws.updateCache]
  | cons p tl ih =>
    intro c
    rw [ws.updateCache, ih (fun q hq => h q (List.mem_cons.mpr (Or.inr hq))),
      jget_cacheStep_ne c p.2 (h p (List.mem_cons.mpr (Or.inl rfl)))]

theorem nodup_updateCache (s : JObj ℚ) :
    ∀ c : JObj ℚ, (jkeys c).Nodup → (jkeys (ws.updateCache c s)).Nodup := by
  induction s with
  | nil => intro c hc; rw [ws.updateCache]; exact hc
  | cons p tl ih =>
    intro c hc
    rw [ws.updateCache]
    exact ih _ (nodup_cacheStep p.1 p.2 hc)

theorem jget_updateCache_big {s : JObj ℚ} {k : String} {v : ℚ}
    (hnd : (jkeys s).Nodup) (hs : jget s k = some v) (hv : v ≠ 0 ∧ |v| > wsEps) :
    ∀ c : JObj ℚ, jget (ws.updateCache c s) k = some v := by
  induction s with
  | nil => exact absurd hs (by rw [jget]; exact Option.noConfusion)
  | cons p tl ih =>
    intro c
    rw [jkeys, List.map_cons, List.nodup_cons] at hnd
    rw [jget] at hs
    by_cases hp : p.1 = k
    · rw [if_pos hp] at hs
      have hv2 : p.2 = v := Option.some_injective _ hs
      have hnotl : ∀ q ∈ tl, q.1 ≠ k := by
        intro q hq he
        exact hnd.1 (hp ▸ he ▸ List.mem_map.mpr ⟨q, hq, rfl⟩)
      rw [ws.updateCache, jget_updateCache_not_reported hnotl]
      unfold ws.cacheStep
      rw [hv2, if_pos hv, hp, jget_jset_self]
    · rw [if_neg hp] at hs
      rw [ws.updateCache, ih hnd.2 hs]

theorem jget_updateCache_small {s : JObj ℚ} {k : String} {v : ℚ}
    (hnds : (jkeys s).Nodup) (hs : jget s k = some v)
    (hv : ¬(v ≠ 0 ∧ |v| > wsEps)) :
    ∀ c : JObj ℚ, (jkeys c).Nodup →
      jget (ws.updateCache c s) k = none ∨ jget (ws.updateCache c s) k = some 0 := by
  induction s with
  | nil => exact absurd hs (by rw [jget]; exact Option.noConfusion)
  | cons p tl ih =>
    intro c hndc
    rw [jkeys, List.map_cons, List.nodup_cons] at hnds
    rw [jget] at hs
    by_cases hp : p.1 = k
    · rw [if_pos hp] at hs
      have hv2 : p.2 = v := Option.some_injective _ hs
      have hnotl : ∀ q ∈ tl, q.1 ≠ k := by
        intro q hq he
        exact hnds.1 (hp ▸ he ▸ List.mem_map.mpr ⟨q, hq, rfl⟩)
      rw [ws.updateCache, jget_updateCache_not_reported hnotl]
      unfold ws.cacheStep
      rw [hv2, if_neg hv, hp]
      by_cases ht : truthyQ (jget c k)
      · rw [if_pos ht]
        exact Or.inl (jget_jdel_self hndc)
      · rw [if_neg ht]
        cases hg : jget c k with
        | none => exact Or.inl rfl
        | some w =>
          rw [hg, truthyQ] at ht
          have hw : w = 0 := by simpa using ht
          exact Or.inr (by rw [hw])
    · rw [if_neg hp] at hs
      rw [ws.updateCache]
      exact ih hnds.2 hs _ (nodup_cacheStep p.1 p.2 hndc)

/-! ## Spot-loop lemmas -/

theorem spotStep_dust {ex : Exchange} {alts : List AltExchange} {base k : String}
    {v : ℚ} {a : Asset} (h : ws.spotStep ex alts base k v = some a) :
    dustMin ≤ |a.baseValue| ∧ a.symbol = k ∧ a.amount = v ∧ a.type = .spot := by
  cases hbv : ws.spotBaseValue ex alts base k v with
  | none =>
    simp only [ws.spotStep, hbv] at h
    exact Option.noConfusion h
  | some bv =>
    simp only [ws.spotStep, hbv] at h
    by_cases hd : |bv| < dustMin
    · rw [if_pos hd] at h
      exact Option.noConfusion h
    · rw [if_neg hd] at h
      have ha : a = ⟨k, v, bv, .spot⟩ := (Option.some_injective _ h).symm
      subst ha
      exact ⟨le_of_not_lt hd, rfl, rfl, rfl⟩

theorem spotStep_zero (ex : Exchange) (alts : List AltExchange) (base k : String) :
    ws.spotStep ex alts base k 0 = none := by
  unfold ws.spotStep ws.spotBaseValue
  by_cases hk : k = base
  · rw [if_pos hk]
    norm_num [dustMin]
  · rw [if_neg hk]
    cases hres : ws.resolveSpotPrice ex alts base k with
    | none => rfl
    | some p =>
      simp only [Option.map_some']
      norm_num [dustMin]

theorem spotStep_base (ex : Exchange) (alts : List AltExchange) (base : String)
    {amt : ℚ} (h : ¬ |amt| < dustMin) :
    ws.spotStep ex alts base base amt = some ⟨base, amt, amt, .spot⟩ := by
  unfold ws.spotStep ws.spotBaseValue
  rw [if_pos rfl]
  exact if_neg h

theorem spotStep_unresolved (ex : Exchange) (alts : List AltExchange) {base k : String}
    (v : ℚ) (hk : k ≠ base) (hres : ws.resolveSpotPrice ex alts base k = none) :
    ws.spotStep ex alts base k v = none := by
  unfold ws.spotStep ws.spotBaseValue
  rw [if_neg hk, hres]
  rfl

theorem spotLoop_inv (ex : Exchange) (alts : List AltExchange) (base : String)
    (P : Asset → Prop)
    (hstep : ∀ c v a, ws.spotStep ex alts base c v = some a → P a)
    (l : List (String × ℚ)) :
    ∀ acc : JObj Asset, (∀ k a, jget acc k = some a → P a) →
      ∀ k a, jget (ws.spotLoop ex alts base l acc) k = some a → P a := by
  induction l with
  | nil =>
    intro acc hacc k a h
    rw [ws.spotLoop] at h
    exact hacc k a h
  | cons p tl ih =>
    intro acc hacc k a h
    rw [ws.spotLoop] at h
    cases hstep' : ws.spotStep ex alts base p.1 p.2 with
    | none =>
      rw [hstep'] at h
      exact ih acc hacc k a h
    | some a' =>
      rw [hstep'] at h
      refine ih _ ?_ k a h
      intro k' a'' hg
      rcases jget_jset_cases acc hg with ⟨_, ha''⟩ | hg'
      · exact ha'' ▸ hstep p.1 p.2 a' hstep'
      · exact hacc k' a'' hg'

theorem jget_spotLoop_step_none (ex : Exchange) (alts : List AltExchange) (base : String)
    {k : String} (l : List (String × ℚ))
    (h : ∀ v, (k, v) ∈ l → ws.spotStep ex alts base k v = none) :
    ∀ acc : JObj Asset, jget (ws.spotLoop ex alts base l acc) k = jget acc k := by
  induction l with
  | nil => intro acc; rw [ws.spotLoop]
  | cons p tl ih =>
    intro acc
    have htl : ∀ v, (k, v) ∈ tl → ws.spotStep ex alts base k v = none :=
      fun v hv => h v (List.mem_cons.mpr (Or.inr hv))
    by_cases hp : p.1 = k
    · have hstep : ws.spotStep ex alts base p.1 p.2 = none := by
        rw [hp]
        exact h p.2 (by rw [← hp]; simp)
      rw [ws.spotLoop, hstep, ih htl]
    · rw [ws.spotLoop]
      cases hstep' : ws.spotStep ex alts base p.1 p.2 with
      | none => rw [ih htl]
      | some a' => rw [ih htl, jget_jset_ne acc a' (fun he => hp he.symm)]

theorem jget_spotLoop_no_key (ex : Exchange) (alts : List AltExchange) (base : String)
    {k : String} (l : List (String × ℚ)) (h : k ∉ jkeys l) :
    ∀ acc : JObj Asset, jget (ws.spotLoop ex alts base l acc) k = jget acc k := by
  induction l with
  | nil => intro acc; rw [ws.spotLoop]
  | cons p tl ih =>
    intro acc
    rw [jkeys, List.map_cons] at h
    have hp : p.1 ≠ k := fun he => h (List.mem_cons.mpr (Or.inl he.symm))
    have htl : k ∉ jkeys tl := fun hm => h (List.mem_cons.mpr (Or.inr hm))
    rw [ws.spotLoop]
    cases hstep' : ws.spotStep ex alts base p.1 p.2 with
    | none => rw [ih htl]
    | some a' => rw [ih htl, jget_jset_ne acc a' (Ne.symm hp)]

theorem jget_spotLoop_unique (ex : Exchange) (alts : List AltExchange) (base : String)
    {k : String} {v : ℚ} {a : Asset} {l : List (String × ℚ)}
    (hnd : (jkeys l).Nodup) (hl : jget l k = some v)
    (hstep : ws.spotStep ex alts base k v = some a) :
    ∀ acc : JObj Asset, jget (ws.spotLoop ex alts base l acc) k = some a := by
  induction l with
  | nil => exact absurd hl (by rw [jget]; exact Option.noConfusion)
  | cons p tl ih =>
    intro acc
    rw [jkeys, List.map_cons, List.nodup_cons] at hnd
    rw [jget] at hl
    by_cases hp : p.1 = k
    · rw [if_pos hp] at hl
      have hv : p.2 = v := Option.some_injective _ hl
      have hnotl : k ∉ jkeys tl := hp ▸ hnd.1
      rw [ws.spotLoop, hp, hv, hstep, jget_spotLoop_no_key ex alts base tl hnotl,
        jget_jset_self]
    · rw [if_neg hp] at hl
      rw [ws.spotLoop]
      cases hstep' : ws.spotStep ex alts base p.1 p.2 with
      | none => exact ih hnd.2 hl _
      | some a' => exact ih hnd.2 hl _

/-! ## Futures-loop lemmas -/

theorem wsPositionsLoop_inv (ex : Exchange) (P : Asset → Prop)
    (hins : ∀ p : Position, ¬ |upnl p| < dustMin →
      P ⟨p.symbol, p.contracts, upnl p, .futures⟩) :
    ∀ (ps : List Position) (acc : JObj Asset),
      (∀ k a, jget acc k = some a → P a) →
      ∀ k a, jget (ws.positionsLoop ex ps acc) k = some a → P a := by
  intro ps
  induction ps with
  | nil =>
    intro acc hacc k a h
    rw [ws.positionsLoop] at h
    exact hacc k a h
  | cons p tl ih =>
    intro acc hacc k a h
    rw [ws.positionsLoop] at h
    by_cases hc : p.contracts = 0
    · rw [if_pos hc] at h
      exact ih acc hacc k a h
    · rw [if_neg hc] at h
      by_cases hm : ex.markets p.symbol
      · rw [if_pos hm] at h
        cases ht : ex.fetchTicker p.symbol with
        | none =>
          rw [ht] at h
          exact hacc k a h
        | some t =>
          rw [ht] at h
          by_cases hd : |upnl p| < dustMin
          · rw [if_pos hd] at h
            exact ih acc hacc k a h
          · rw [if_neg hd] at h
            refine ih _ ?_ k a h
            intro k' a' hg
            rcases jget_jset_cases acc hg with ⟨_, ha'⟩ | hg'
            · exact ha' ▸ hins p hd
            · exact hacc k' a' hg'
      · rw [if_neg hm] at h
        exact ih acc hacc k a h

theorem jget_wsPositionsLoop_no_symbol (ex : Exchange) {k : String} :
    ∀ (ps : List Position), (∀ p ∈ ps, p.symbol ≠ k) →
      ∀ acc : JObj Asset, jget (ws.positionsLoop ex ps acc) k = jget acc k := by
  intro ps
  induction ps with
  | nil => intro _ acc; rw [ws.positionsLoop]
  | cons p tl ih =>
    intro h acc
    have hp : p.symbol ≠ k := h p (List.mem_cons.mpr (Or.inl rfl))
    have htl : ∀ q ∈ tl, q.symbol ≠ k := fun q hq => h q (List.mem_cons.mpr (Or.inr hq))
    rw [ws.positionsLoop]
    by_cases hc : p.contracts = 0
    · rw [if_pos hc, ih htl]
    · rw [if_neg hc]
      by_cases hm : ex.markets p.symbol
      · rw [if_pos hm]
        cases ht : ex.fetchTicker p.symbol with
        | none => rfl
        | some t =>
          by_cases hd : |upnl p| < dustMin
          · rw [if_pos hd, ih htl]
          · rw [if_neg hd, ih htl, jget_jset_ne acc _ (Ne.symm hp)]
      · rw [if_neg hm, ih htl]

theorem jget_restPositionsLoop_no_symbol (ex : Exchange) {k : String} :
    ∀ (ps : List Position), (∀ p ∈ ps, p.symbol ≠ k) →
      ∀ acc : JObj Asset, jget (rest.positionsLoop ex ps acc) k = jget acc k := by
  intro ps
  induction ps with
  | nil => intro _ acc; rw [rest.positionsLoop]
  | cons p tl ih =>
    intro h acc
    have hp : p.symbol ≠ k := h p (List.mem_cons.mpr (Or.inl rfl))
    have htl : ∀ q ∈ tl, q.symbol ≠ k := fun q hq => h q (List.mem_cons.mpr (Or.inr hq))
    rw [rest.positionsLoop]
    by_cases hc : p.contracts = 0
    · rw [if_pos hc, ih htl]
    · rw [if_neg hc]
      cases ht : ex.fetchTicker p.symbol with
      | none => rfl
      | some t => rw [ih htl, jget_jset_ne acc _ (Ne.symm hp)]

/-- A position hypothesis bundle: every position the exchange can report
has a symbol different from `k`. -/
def noPositionNamed (ex : Exchange) (k : String) : Prop :=
  ∀ ps, ex.fetchPositionsResult = some ps → ∀ p ∈ ps, p.symbol ≠ k

theorem jget_wsIncludePositions_no_symbol (ex : Exchange) {k : String}
    (h : noPositionNamed ex k) (assets : JObj Asset) :
    jget (ws.includePositions ex assets) k = jget assets k := by
  unfold ws.includePositions
  by_cases hhas : ex.hasFetchPositions
  · rw [if_pos hhas]
    cases hres : ex.fetchPositionsResult with
    | none => rfl
    | some ps => exact jget_wsPositionsLoop_no_symbol ex ps (h ps hres) assets
  · rw [if_neg hhas]

theorem jget_restIncludePositions_no_symbol (ex : Exchange) {k : String}
    (h : noPositionNamed ex k) (assets : JObj Asset) :
    jget (rest.includePositions ex assets) k = jget assets k := by
  unfold rest.includePositions
  by_cases hhas : ex.hasFetchPositions
  · rw [if_pos hhas]
    cases hres : ex.fetchPositionsResult with
    | none => rfl
    | some ps => exact jget_restPositionsLoop_no_symbol ex ps (h ps hres) assets
  · rw [if_neg hhas]

/-! ## REST-loop lemmas -/

theorem jget_restSpotLoop_no_key (ex : Exchange) (alts : List AltExchange) (base : String)
    {k : String} : ∀ (l : List (String × ℚ)), k ∉ jkeys l →
      ∀ (acc : JObj Asset) (assets : JObj Asset),
        rest.spotLoop ex alts base l acc = some assets → jget assets k = jget acc k := by
  intro l
  induction l with
  | nil =>
    intro _ acc assets h
    rw [rest.spotLoop] at h
    rw [← Option.some_injective _ h]
  | cons p tl ih =>
    intro hk acc assets h
    rw [jkeys, List.map_cons] at hk
    have hp : p.1 ≠ k := fun he => hk (List.mem_cons.mpr (Or.inl he.symm))
    have htl : k ∉ jkeys tl := fun hm => hk (List.mem_cons.mpr (Or.inr hm))
    rw [rest.spotLoop] at h
    cases hstep : rest.spotStep ex alts base p.1 p.2 with
    | none =>
      rw [hstep] at h
      exact Option.noConfusion h
    | some o =>
      rw [hstep] at h
      cases o with
      | none => exact ih htl acc assets h
      | some a => rw [ih htl _ assets h, jget_jset_ne acc a (Ne.symm hp)]

theorem jget_restSpotLoop_unique (ex : Exchange) (alts : List AltExchange) (base : String)
    {k : String} {v : ℚ} {a : Asset} :
    ∀ (l : List (String × ℚ)), (jkeys l).Nodup → jget l k = some v →
      rest.spotStep ex alts base k v = some (some a) →
      ∀ (acc : JObj Asset) (assets : JObj Asset),
        rest.spotLoop ex alts base l acc = some assets → jget assets k = some a := by
  intro l
  induction l with
  | nil =>
    intro _ hl
    exact absurd hl (by rw [jget]; exact Option.noConfusion)
  | cons p tl ih =>
    intro hnd hl hstep acc assets h
    rw [jkeys, List.map_cons, List.nodup_cons] at hnd
    rw [jget] at hl
    rw [rest.spotLoop] at h
    by_cases hp : p.1 = k
    · rw [if_pos hp] at hl
      have hv : p.2 = v := Option.some_injective _ hl
      rw [hp, hv, hstep] at h
      rw [jget_restSpotLoop_no_key ex alts base tl (hp ▸ hnd.1) _ assets h,
        jget_jset_self]
    · rw [if_neg hp] at hl
      cases hstep' : rest.spotStep ex alts base p.1 p.2 with
      | none =>
        rw [hstep'] at h
        exact Option.noConfusion h
      | some o =>
        rw [hstep'] at h
        cases o with
        | none => exact ih hnd.2 hl hstep acc assets h
        | some a' => exact ih hnd.2 hl hstep _ assets h

theorem jget_reorderUSDC_ne (t : JObj ℚ) {k : String} (h : k ≠ "USDC") :
    jget (rest.reorderUSDC t) k = jget t k := by
  cases hg : jget t "USDC" with
  | none => simp only [rest.reorderUSDC, hg]
  | some v =>
    simp only [rest.reorderUSDC, hg]
    by_cases hv : v = 0
    · rw [if_pos hv]
    · rw [if_neg hv]
      simp only [jget]
      rw [if_neg (fun he : "USDC" = k => h he.symm), jget_jdel_ne t h]

theorem nodup_reorderUSDC {t : JObj ℚ} (hnd : (jkeys t).Nodup) :
    (jkeys (rest.reorderUSDC t)).Nodup := by
  cases hg : jget t "USDC" with
  | none => simp only [rest.reorderUSDC, hg]; exact hnd
  | some v =>
    simp only [rest.reorderUSDC, hg]
    by_cases hv : v = 0
    · rw [if_pos hv]
      exact hnd
    · rw [if_neg hv, jkeys, List.map_cons, List.nodup_cons]
      refine ⟨fun hm => ?_, nodup_jkeys_jdel _ hnd⟩
      rcases jget_isSome_of_mem_jkeys hm with ⟨w, hw⟩
      rw [jget_jdel_self hnd] at hw
      exact Option.noConfusion hw

/-! ## Price-resolution lemmas -/

theorem resolveSpotPrice_none_of_unavailable (ex : Exchange) (alts : List AltExchange)
    (base c : String) (hm : findMarket ex.markets c base = none)
    (halt : ws.fetchPriceFromAlternativeExchange alts c base = none) :
    ws.resolveSpotPrice ex alts base c = none := by
  simp only [ws.resolveSpotPrice, hm, halt, Option.join]
  rfl

theorem resolveSpotPrice_inverted (ex : Exchange) (alts : List AltExchange)
    {base c pair : String} {t : Ticker} {q : ℚ}
    (hm : findMarket ex.markets c base = some pair)
    (hinv : invertFor base pair = true)
    (ht : ex.fetchTicker pair = some t)
    (hq : tickerPrice t = some q) (hq0 : q ≠ 0) :
    ws.resolveSpotPrice ex alts base c = some (1 / q) := by
  simp only [ws.resolveSpotPrice, hm, ht, hq, hinv, invertOpt, Option.map_some', if_true]
  rw [if_neg (one_div_ne_zero hq0)]

theorem resolveSpotPrice_direct (ex : Exchange) (alts : List AltExchange)
    {base c pair : String} {t : Ticker} {q : ℚ}
    (hm : findMarket ex.markets c base = some pair)
    (hinv : invertFor base pair = false)
    (ht : ex.fetchTicker pair = some t)
    (hq : tickerPrice t = some q) (hq0 : q ≠ 0) :
    ws.resolveSpotPrice ex alts base c = some q := by
  simp only [ws.resolveSpotPrice, hm, ht, hq, hinv, Bool.false_eq_true, if_false]
  rw [if_neg hq0]

theorem spotBaseValue_of_price (ex : Exchange) (alts : List AltExchange)
    {base c : String} {p : ℚ} (hc : c ≠ base)
    (hres : ws.resolveSpotPrice ex alts base c = some p) (amt : ℚ) :
    ws.spotBaseValue ex alts base c amt = some (amt * p) := by
  rw [ws.spotBaseValue, if_neg hc, hres, Option.map_some']

theorem restSpotStep_base (ex : Exchange) (alts : List AltExchange) (base : String)
    {amt : ℚ} (h0 : amt ≠ 0) (hbig : |amt| > restEps) :
    rest.spotStep ex alts base base amt = some (some ⟨base, amt, amt, .spot⟩) := by
  rw [rest.spotStep, if_neg (not_or.mpr ⟨h0, not_not_intro hbig⟩), if_pos rfl]

theorem wsPositionsLoop_single (ex : Exchange) {p : Position} {t : Ticker}
    (hc : p.contracts ≠ 0) (hm : ex.markets p.symbol = true)
    (ht : ex.fetchTicker p.symbol = some t) (hd : ¬ |upnl p| < dustMin)
    (acc : JObj Asset) :
    ws.positionsLoop ex [p] acc
      = jset acc p.symbol ⟨p.symbol, p.contracts, upnl p, .futures⟩ := by
  rw [ws.positionsLoop, if_neg hc, if_pos hm, ht, if_neg hd, ws.positionsLoop]

theorem restPositionsLoop_single (ex : Exchange) {p : Position} {t : Ticker}
    (hc : p.contracts ≠ 0) (ht : ex.fetchTicker p.symbol = some t)
    (acc : JObj Asset) :
    rest.positionsLoop ex [p] acc
      = jset acc p.symbol ⟨p.symbol, p.contracts, upnl p, .futures⟩ := by
  rw [rest.positionsLoop, if_neg hc, ht, rest.positionsLoop]

/-- Every asset in a WS-variant cache valuation (spot loop plus futures
section) clears the dust threshold. -/
theorem wsValuation_dust (ex : Exchange) (alts : List AltExchange) (base : String)
    (cache : JObj ℚ) :
    ∀ k a, jget (ws.valuation ex alts base cache) k = some a →
      dustMin ≤ |a.baseValue| := by
  have hspot : ∀ k a, jget (ws.spotAssets ex alts base cache) k = some a →
      dustMin ≤ |a.baseValue| := by
    refine spotLoop_inv ex alts base (fun a => dustMin ≤ |a.baseValue|)
      (fun c v a h => (spotStep_dust h).1) cache [] ?_
    intro k a h
    rw [jget] at h
    exact Option.noConfusion h
  intro k a h
  rw [ws.valuation, ws.includePositions] at h
  by_cases hhas : ex.hasFetchPositions
  · rw [if_pos hhas] at h
    cases hres : ex.fetchPositionsResult with
    | none =>
      rw [hres] at h
      exact hspot k a h
    | some ps =>
      rw [hres] at h
      exact wsPositionsLoop_inv ex (fun a => dustMin ≤ |a.baseValue|)
        (fun p hd => le_of_not_lt hd) ps _ hspot k a h
  · rw [if_neg hhas] at h
    exact hspot k a h

/-! ## Small-step evaluation lemmas (used to run the pipelines on
concrete inputs) -/

theorem wsSpotLoop_nil (ex : Exchange) (alts : List AltExchange) (base : String)
    (acc : JObj Asset) : ws.spotLoop ex alts base [] acc = acc := rfl

theorem wsSpotLoop_cons_some {ex : Exchange} {alts : List AltExchange}
    {base k : String} {v : ℚ} {a : Asset}
    (h : ws.spotStep ex alts base k v = some a) (tl : List (String × ℚ))
    (acc : JObj Asset) :
    ws.spotLoop ex alts base ((k, v) :: tl) acc
      = ws.spotLoop ex alts base tl (jset acc k a) := by
  rw [ws.spotLoop]
  dsimp only
  rw [h]

theorem wsSpotLoop_cons_none {ex : Exchange} {alts : List AltExchange}
    {base k : String} {v : ℚ}
    (h : ws.spotStep ex alts base k v = none) (tl : List (String × ℚ))
    (acc : JObj Asset) :
    ws.spotLoop ex alts base ((k, v) :: tl) acc = ws.spotLoop ex alts base tl acc := by
  rw [ws.spotLoop]
  dsimp only
  rw [h]

theorem restSpotLoop_nil (ex : Exchange) (alts : List AltExchange) (base : String)
    (acc : JObj Asset) : rest.spotLoop ex alts base [] acc = some acc := rfl

theorem restSpotLoop_cons_some {ex : Exchange} {alts : List AltExchange}
    {base k : String} {v : ℚ} {a : Asset}
    (h : rest.spotStep ex alts base k v = some (some a)) (tl : List (String × ℚ))
    (acc : JObj Asset) :
    rest.spotLoop ex alts base ((k, v) :: tl) acc
      = rest.spotLoop ex alts base tl (jset acc k a) := by
  rw [rest.spotLoop]
  dsimp only
  rw [h]

theorem restSpotLoop_cons_skip {ex : Exchange} {alts : List AltExchange}
    {base k : String} {v : ℚ}
    (h : rest.spotStep ex alts base k v = some none) (tl : List (String × ℚ))
    (acc : JObj Asset) :
    rest.spotLoop ex alts base ((k, v) :: tl) acc = rest.spotLoop ex alts base tl acc := by
  rw [rest.spotLoop]
  dsimp only
  rw [h]

theorem updateCache_nil (cache : JObj ℚ) : ws.updateCache cache [] = cache := rfl

theorem updateCache_cons (cache : JObj ℚ) (p : String × ℚ) (tl : JObj ℚ) :
    ws.updateCache cache (p :: tl) = ws.updateCache (ws.cacheStep cache p.1 p.2) tl := rfl

theorem cacheStep_big {v : ℚ} (c : JObj ℚ) (k : String) (h0 : v ≠ 0)
    (hbig : |v| > wsEps) : ws.cacheStep c k v = jset c k v := by
  rw [ws.cacheStep, if_pos ⟨h0, hbig⟩]

theorem wsProcess_eq (ex : Exchange) (alts : List AltExchange) (base : String)
    (s cache : JObj ℚ) :
    ws.processBalanceData ex alts base s cache
      = ⟨ws.updateCache cache s, ws.valuation ex alts base (ws.updateCache cache s),
         totalOf (ws.valuation ex alts base (ws.updateCache cache s))⟩ := rfl

theorem wsCompile_eq (ex : Exchange) (alts : List AltExchange) (base : String)
    (s cache : JObj ℚ) :
    ws.compileAndUpdateBalances ex alts base s cache
      = ⟨ws.updateCache cache s, ws.spotAssets ex alts base (ws.updateCache cache s),
         totalOf (ws.spotAssets ex alts base (ws.updateCache cache s))⟩ := rfl

theorem wsValuation_eq (ex : Exchange) (alts : List AltExchange) (base : String)
    (cache : JObj ℚ) :
    ws.valuation ex alts base cache
      = ws.includePositions ex (ws.spotAssets ex alts base cache) := rfl

theorem wsIncludePositions_no_support {ex : Exchange}
    (h : ex.hasFetchPositions = false) (assets : JObj Asset) :
    ws.includePositions ex assets = assets := by
  rw [ws.includePositions, h]
  exact if_neg Bool.false_ne_true

theorem wsIncludePositions_some {ex : Exchange} {ps : List Position}
    (hhas : ex.hasFetchPositions = true) (hps : ex.fetchPositionsResult = some ps)
    (assets : JObj Asset) :
    ws.includePositions ex assets = ws.positionsLoop ex ps assets := by
  rw [ws.includePositions, hhas, if_pos rfl, hps]

theorem restIncludePositions_no_support {ex : Exchange}
    (h : ex.hasFetchPositions = false) (assets : JObj Asset) :
    rest.includePositions ex assets = assets := by
  rw [rest.includePositions, h]
  exact if_neg Bool.false_ne_true

theorem restIncludePositions_some {ex : Exchange} {ps : List Position}
    (hhas : ex.hasFetchPositions = true) (hps : ex.fetchPositionsResult = some ps)
    (assets : JObj Asset) :
    rest.includePositions ex assets = rest.positionsLoop ex ps assets := by
  rw [rest.includePositions, hhas, if_pos rfl, hps]

theorem restProcess_some {ex : Exchange} {alts : List AltExchange} {base : String}
    {s : JObj ℚ} {a0 : JObj Asset}
    (h : rest.spotLoop ex alts base (rest.reorderUSDC s) [] = some a0) :
    rest.processBalanceData ex alts base s
      = some ⟨rest.includePositions ex a0, totalOf (rest.includePositions ex a0)⟩ := by
  rw [rest.processBalanceData, h]

/-! ## Concrete environments used by counterexamples and witnesses -/

/-- A minimal exchange: no markets, every ticker fetch throws, no
position support. -/
def exBare : Exchange := ⟨fun _ => false, fun _ => none, false, none⟩

/-- An exchange listing only the inverted pair `USD/ETH`, whose ticker
reports `last = 0.0004 = 1/2500`. -/
def exUsdEth : Exchange :=
  ⟨fun pair => pair == "USD/ETH",
   fun pair => if pair == "USD/ETH" then some ⟨some (1/2500), none⟩ else none,
   false, none⟩

/-- An exchange listing `BTC/USD` with ticker `last = 100`. -/
def exBtcUsd : Exchange :=
  ⟨fun pair => pair == "BTC/USD",
   fun pair => if pair == "BTC/USD" then some ⟨some 100, none⟩ else none,
   false, none⟩

/-- An alternate exchange listing only `USD/ETH` at `last = 1/2500`. -/
def altUsdEth : AltExchange :=
  ⟨true, fun pair => pair == "USD/ETH",
   fun pair => if pair == "USD/ETH" then some ⟨some (1/2500), none⟩ else none⟩

/-- A futures position with dust-level unrealized PnL (`-0.005`). -/
def posDust : Position := ⟨"XBT/USD:USD", 10, some (-(1/200))⟩

/-- An exchange reporting exactly the dust position, with a live ticker
for its symbol. -/
def exPosDust : Exchange :=
  ⟨fun pair => pair == "XBT/USD:USD",
   fun pair => if pair == "XBT/USD:USD" then some ⟨some 1, none⟩ else none,
   true, some [posDust]⟩

/-- A futures position with unrealized PnL `-5.00`. -/
def posNeg5 : Position := ⟨"XBT/USD:USD", 10, some (-5)⟩

/-- An exchange reporting exactly the `-5.00` position, with a live
ticker for its symbol. -/
def exPosNeg5 : Exchange :=
  ⟨fun pair => pair == "XBT/USD:USD",
   fun pair => if pair == "XBT/USD:USD" then some ⟨some 1, none⟩ else none,
   true, some [posNeg5]⟩

/-- A snapshot environment in which every underlying fetch throws. -/
def envFetchFail : SnapshotEnv := ⟨"kraken", none, none, none, none⟩

/-- A fund-account environment whose supplementary fetches all fail. -/
def fxFundFail : fund.FundExchange :=
  ⟨exBare, "gateio", some "swap", true, none, ⟨true, none, fun _ => none⟩⟩

/-- The same fund-account connection with working supplementary fetches. -/
def fxFundOk : fund.FundExchange :=
  ⟨exBare, "gateio", some "swap", true, some [("USD", 7)],
   ⟨true, some [⟨"USDT", 3⟩], fun _ => none⟩⟩

/-! ## Claims -/

/-- C1: after every normalization pass — the WS-variant
`processBalanceData` and `compileAndUpdateBalances`, and the REST-variant
`processBalanceData` whenever it completes — the group record's `total`
equals the sum of `asset.baseValue` over every asset present in the new
`balances` mapping; it is recomputed from the new mapping on each pass,
never incrementally updated. -/
theorem c1_total_is_sum_of_base_values (ex : Exchange) (alts : List AltExchange)
    (base : String) (s cache : JObj ℚ) :
    (ws.processBalanceData ex alts base s cache).total
        = baseValueSum (ws.processBalanceData ex alts base s cache).balances
    ∧ (ws.compileAndUpdateBalances ex alts base s cache).total
        = baseValueSum (ws.compileAndUpdateBalances ex alts base s cache).balances
    ∧ ∀ r : GroupView, rest.processBalanceData ex alts base s = some r →
        r.total = baseValueSum r.balances := by
  refine ⟨totalOf_eq_baseValueSum _, totalOf_eq_baseValueSum _, ?_⟩
  intro r hr
  rw [rest.processBalanceData] at hr
  cases hl : rest.spotLoop ex alts base (rest.reorderUSDC s) [] with
  | none =>
    rw [hl] at hr
    exact Option.noConfusion hr
  | some a0 =>
    rw [hl] at hr
    rw [← Option.some_injective _ hr]
    exact totalOf_eq_baseValueSum _

/-- C1 witness: the theorem applied to a concrete successful REST pass. -/
theorem c1_witness :
    rest.processBalanceData exBare [] "USD" [("USD", 100)]
      = some ⟨[("USD", ⟨"USD", 100, 100, .spot⟩)], 100⟩
    ∧ (100 : ℚ) = baseValueSum [("USD", ⟨"USD", 100, 100, .spot⟩)] := by
  have hstep : rest.spotStep exBare [] "USD" "USD" 100
      = some (some ⟨"USD", 100, 100, .spot⟩) :=
    restSpotStep_base exBare [] "USD" (by norm_num) (by rw [restEps]; norm_num)
  have hloop : rest.spotLoop exBare [] "USD" (rest.reorderUSDC [("USD", 100)]) []
      = some [("USD", ⟨"USD", 100, 100, .spot⟩)] := by
    rw [show rest.reorderUSDC [("USD", 100)] = [("USD", 100)] from rfl,
      restSpotLoop_cons_some hstep, restSpotLoop_nil]
    rfl
  have heq : rest.processBalanceData exBare [] "USD" [("USD", 100)]
      = some ⟨[("USD", ⟨"USD", 100, 100, .spot⟩)], 100⟩ := by
    rw [restProcess_some hloop, restIncludePositions_no_support rfl]
    have ht : totalOf [("USD", (⟨"USD", 100, 100, .spot⟩ : Asset))] = 100 := by
      rw [totalOf, totalLoop, totalLoop]
      norm_num
    rw [ht]
  refine ⟨heq, ?_⟩
  have h := (c1_total_is_sum_of_base_values exBare [] "USD" [("USD", 100)] []).2.2 _ heq
  simpa using h

/-- C2 counterexample: the REST variant applies no dust filter, so a raw
balance of `0.001` in the valuation currency is retained with
`|baseValue| < 0.01`, contradicting the claim for "every variant". -/
theorem c2_counterexample_rest_retains_dust :
    rest.processBalanceData exBare [] "USD" [("USD", 1/1000)]
      = some ⟨[("USD", ⟨"USD", 1/1000, 1/1000, .spot⟩)], 1/1000⟩
    ∧ |(1/1000 : ℚ)| < dustMin := by
  have hstep : rest.spotStep exBare [] "USD" "USD" (1/1000)
      = some (some ⟨"USD", 1/1000, 1/1000, .spot⟩) :=
    restSpotStep_base exBare [] "USD" (by norm_num)
      (by rw [restEps, abs_of_pos] <;> norm_num)
  have hloop : rest.spotLoop exBare [] "USD" (rest.reorderUSDC [("USD", 1/1000)]) []
      = some [("USD", ⟨"USD", 1/1000, 1/1000, .spot⟩)] := by
    rw [show rest.reorderUSDC [("USD", 1/1000)] = [("USD", 1/1000)] from rfl,
      restSpotLoop_cons_some hstep, restSpotLoop_nil]
    rfl
  constructor
  · rw [restProcess_some hloop, restIncludePositions_no_support rfl]
    have ht : totalOf [("USD", (⟨"USD", 1/1000, 1/1000, .spot⟩ : Asset))] = 1/1000 := by
      rw [totalOf, totalLoop, totalLoop]
      norm_num
    rw [ht]
  · rw [dustMin, abs_of_pos] <;> norm_num

/-- C2 (amended): in the WebSocket-variant passes (`processBalanceData`
and `compileAndUpdateBalances`) every retained asset, spot or futures,
satisfies `|baseValue| ≥ 0.01`; the REST variant applies no dust filter
and can retain assets below that threshold. -/
theorem c2_dust_filter_ws_variants (ex : Exchange) (alts : List AltExchange)
    (base : String) (s cache : JObj ℚ) :
    (∀ k a, jget (ws.processBalanceData ex alts base s cache).balances k = some a →
        dustMin ≤ |a.baseValue|)
    ∧ (∀ k a, jget (ws.compileAndUpdateBalances ex alts base s cache).balances k = some a →
        dustMin ≤ |a.baseValue|) := by
  constructor
  · intro k a h
    exact wsValuation_dust ex alts base _ k a h
  · intro k a h
    rw [ws.compileAndUpdateBalances] at h
    refine spotLoop_inv ex alts base (fun a => dustMin ≤ |a.baseValue|)
      (fun c v a h => (spotStep_dust h).1) _ [] ?_ k a h
    intro k' a' h'
    rw [jget] at h'
    exact Option.noConfusion h'

/-- C2 witness: the amended dust bound applied to a concrete retained
asset of the WS pass. -/
theorem c2_witness : dustMin ≤ |(5000 : ℚ)| := by
  have hq : tickerPrice ⟨some (1/2500), none⟩ = some (1/2500) := by
    rw [tickerPrice]
    dsimp only
    rw [if_neg (by norm_num)]
  have hres : ws.resolveSpotPrice exUsdEth [] "USD" "ETH" = some (1/(1/2500)) :=
    resolveSpotPrice_inverted exUsdEth [] rfl rfl rfl hq (by norm_num)
  have hbv : ws.spotBaseValue exUsdEth [] "USD" "ETH" 2 = some (2 * (1/(1/2500))) :=
    spotBaseValue_of_price exUsdEth [] (by decide) hres 2
  have hstep : ws.spotStep exUsdEth [] "USD" "ETH" 2 = some ⟨"ETH", 2, 5000, .spot⟩ := by
    rw [ws.spotStep, hbv]
    dsimp only
    rw [if_neg (by rw [dustMin]; norm_num)]
    norm_num
  have hcache : ws.updateCache [] [("ETH", 2)] = [("ETH", 2)] := by
    rw [updateCache_cons]
    dsimp only
    rw [cacheStep_big [] "ETH" (by norm_num) (by rw [wsEps]; norm_num), updateCache_nil]
    rfl
  have hjget : jget (ws.processBalanceData exUsdEth [] "USD" [("ETH", 2)] []).balances "ETH"
      = some ⟨"ETH", 2, 5000, .spot⟩ := by
    rw [wsProcess_eq]
    dsimp only
    rw [hcache, wsValuation_eq, wsIncludePositions_no_support rfl, ws.spotAssets,
      wsSpotLoop_cons_some hstep, wsSpotLoop_nil, jget_jset_self]
  have h := (c2_dust_filter_ws_variants exUsdEth [] "USD" [("ETH", 2)] []).1 "ETH" _ hjget
  simpa using h

/-- C3 counterexample: after a snapshot of `{BTC: 0.5}` fills the cache,
processing a later snapshot that is the empty mapping `{}` (BTC absent)
leaves the BTC asset present in the published balances — the claim says
it must be absent.  Deletion only happens when a snapshot explicitly
reports the currency with a falsy/below-threshold amount. -/
theorem c3_counterexample_absent_currency_survives :
    jget (ws.processBalanceData exBtcUsd [] "USD" [] [("BTC", 1/2)]).balances "BTC"
      = some ⟨"BTC", 1/2, 50, .spot⟩ := by
  have hq : tickerPrice ⟨some 100, none⟩ = some 100 := by
    rw [tickerPrice]
    dsimp only
    rw [if_neg (by norm_num)]
  have hres : ws.resolveSpotPrice exBtcUsd [] "USD" "BTC" = some 100 :=
    resolveSpotPrice_direct exBtcUsd [] rfl rfl rfl hq (by norm_num)
  have hbv : ws.spotBaseValue exBtcUsd [] "USD" "BTC" (1/2) = some ((1/2) * 100) :=
    spotBaseValue_of_price exBtcUsd [] (by decide) hres (1/2)
  have hstep : ws.spotStep exBtcUsd [] "USD" "BTC" (1/2) = some ⟨"BTC", 1/2, 50, .spot⟩ := by
    rw [ws.spotStep, hbv]
    dsimp only
    rw [if_neg (by rw [dustMin]; norm_num)]
    norm_num
  rw [wsProcess_eq]
  dsimp only
  rw [updateCache_nil, wsValuation_eq, wsIncludePositions_no_support rfl, ws.spotAssets,
    wsSpotLoop_cons_some hstep, wsSpotLoop_nil, jget_jset_self]

/-- C3 (amended): a cache entry is removed — and the currency's asset is
absent from the published balances — when a later snapshot explicitly
reports that currency with a falsy or below-`1e-6` amount; a snapshot
from which the currency is wholly absent leaves the cached amount (and
the asset) in place. -/
theorem c3_cache_zeroing_on_reported_zero (ex : Exchange) (alts : List AltExchange)
    (base : String) {s cache : JObj ℚ} {k : String} {a : ℚ}
    (hnds : (jkeys s).Nodup) (hndc : (jkeys cache).Nodup)
    (hk : jget s k = some a) (hsmall : ¬(a ≠ 0 ∧ |a| > wsEps))
    (hpos : noPositionNamed ex k) :
    jget (ws.processBalanceData ex alts base s cache).balances k = none
    ∧ (jget (ws.processBalanceData ex alts base s cache).cache k = none
       ∨ jget (ws.processBalanceData ex alts base s cache).cache k = some 0) := by
  have hc2 := jget_updateCache_small hnds hk hsmall cache hndc
  have hnd2 : (jkeys (ws.updateCache cache s)).Nodup := nodup_updateCache s cache hndc
  constructor
  · have hsteps : ∀ v, (k, v) ∈ ws.updateCache cache s →
        ws.spotStep ex alts base k v = none := by
      intro v hv
      have hg := jget_eq_of_mem_nodup hnd2 hv
      rcases hc2 with h0 | h0
      · rw [h0] at hg
        exact Option.noConfusion hg
      · rw [h0] at hg
        have hv0 : v = 0 := (Option.some_injective _ hg).symm
        rw [hv0]
        exact spotStep_zero ex alts base k
    rw [wsProcess_eq]
    dsimp only
    rw [wsValuation_eq, jget_wsIncludePositions_no_symbol ex hpos, ws.spotAssets,
      jget_spotLoop_step_none ex alts base _ hsteps []]
    rfl
  · rw [wsProcess_eq]
    exact hc2

/-- C4: a currency whose price cannot be resolved — no candidate pair on
the primary exchange and a failed alternate-exchange fallback, or a
resolution yielding a falsy price — is entirely absent from the pass's
output mapping. -/
theorem c4_unresolvable_price_suppresses_asset (ex : Exchange) (alts : List AltExchange)
    (base : String) (s cache : JObj ℚ) {k : String}
    (hk : k ≠ base)
    (hres : (findMarket ex.markets k base = none
              ∧ ws.fetchPriceFromAlternativeExchange alts k base = none)
            ∨ ws.resolveSpotPrice ex alts base k = none)
    (hpos : noPositionNamed ex k) :
    jget (ws.processBalanceData ex alts base s cache).balances k = none := by
  have hres' : ws.resolveSpotPrice ex alts base k = none := by
    rcases hres with ⟨h1, h2⟩ | h
    · exact resolveSpotPrice_none_of_unavailable ex alts base k h1 h2
    · exact h
  have hsteps : ∀ v, (k, v) ∈ ws.updateCache cache s →
      ws.spotStep ex alts base k v = none :=
    fun v _ => spotStep_unresolved ex alts v hk hres'
  rw [wsProcess_eq]
  dsimp only
  rw [wsValuation_eq, jget_wsIncludePositions_no_symbol ex hpos, ws.spotAssets,
    jget_spotLoop_step_none ex alts base _ hsteps []]
  rfl

/-- C4 witness: the theorem applied to a concrete environment with no
markets and no alternates. -/
theorem c4_witness :
    jget (ws.processBalanceData exBare [] "USD" [("XYZ", 5)] []).balances "XYZ" = none := by
  refine c4_unresolvable_price_suppresses_asset exBare [] "USD" [("XYZ", 5)] []
    (by decide) (Or.inl ⟨rfl, rfl⟩) ?_
  intro ps hps
  exact Option.noConfusion hps

/-- C5: for a group whose valuation currency is USD, a raw balance entry
`{USD: 100}` always yields the asset `{symbol: USD, amount: 100,
baseValue: 100}` in the published balances — with no price lookup and
independently of market/ticker data (the exchange and alternate
environments are universally quantified) — in both the WS pass and any
completing REST pass. -/
theorem c5_valuation_currency_identity (ex : Exchange) (alts : List AltExchange)
    {s cache : JObj ℚ}
    (hnds : (jkeys s).Nodup) (hndc : (jkeys cache).Nodup)
    (h100 : jget s "USD" = some 100)
    (hpos : noPositionNamed ex "USD") :
    jget (ws.processBalanceData ex alts "USD" s cache).balances "USD"
      = some ⟨"USD", 100, 100, .spot⟩
    ∧ ∀ r, rest.processBalanceData ex alts "USD" s = some r →
        jget r.balances "USD" = some ⟨"USD", 100, 100, .spot⟩ := by
  constructor
  · have hc2 : jget (ws.updateCache cache s) "USD" = some 100 :=
      jget_updateCache_big hnds h100
        ⟨by norm_num, by rw [wsEps, abs_of_pos] <;> norm_num⟩ cache
    have hnd2 : (jkeys (ws.updateCache cache s)).Nodup := nodup_updateCache s cache hndc
    have hstep : ws.spotStep ex alts "USD" "USD" 100 = some ⟨"USD", 100, 100, .spot⟩ :=
      spotStep_base ex alts "USD" (by rw [dustMin, abs_of_pos] <;> norm_num)
    rw [wsProcess_eq]
    dsimp only
    rw [wsValuation_eq, jget_wsIncludePositions_no_symbol ex hpos, ws.spotAssets,
      jget_spotLoop_unique ex alts "USD" hnd2 hc2 hstep []]
  · intro r hr
    rw [rest.processBalanceData] at hr
    cases hl : rest.spotLoop ex alts "USD" (rest.reorderUSDC s) [] with
    | none =>
      rw [hl] at hr
      exact Option.noConfusion hr
    | some a0 =>
      rw [hl] at hr
      rw [← Option.some_injective _ hr]
      dsimp only
      rw [jget_restIncludePositions_no_symbol ex hpos]
      have hre : jget (rest.reorderUSDC s) "USD" = some 100 :=
        (jget_reorderUSDC_ne s (by decide)).trans h100
      have hnre : (jkeys (rest.reorderUSDC s)).Nodup := nodup_reorderUSDC hnds
      have hstep : rest.spotStep ex alts "USD" "USD" 100
          = some (some ⟨"USD", 100, 100, .spot⟩) :=
        restSpotStep_base ex alts "USD" (by norm_num)
          (by rw [restEps, abs_of_pos] <;> norm_num)
      exact jget_restSpotLoop_unique ex alts "USD" _ hnre hre hstep [] a0 hl

/-- C5 witness: the theorem applied to the bare environment. -/
theorem c5_witness :
    jget (ws.processBalanceData exBare [] "USD" [("USD", 100)] []).balances "USD"
      = some ⟨"USD", 100, 100, .spot⟩ := by
  have h := c5_valuation_currency_identity exBare []
    (show (jkeys [("USD", 100)]).Nodup by simp [jkeys])
    (show (jkeys ([] : JObj ℚ)).Nodup by simp [jkeys])
    (show jget [("USD", 100)] "USD" = some 100 from rfl)
    (fun ps hps => Option.noConfusion hps)
  exact h.1

/-- C3 witness: the amended claim applied to a snapshot explicitly
reporting `{BTC: 0}` over a cache holding `BTC: 0.5`. -/
theorem c3_witness :
    jget (ws.processBalanceData exBtcUsd [] "USD" [("BTC", 0)] [("BTC", 1/2)]).balances "BTC"
      = none
    ∧ (jget (ws.processBalanceData exBtcUsd [] "USD" [("BTC", 0)] [("BTC", 1/2)]).cache "BTC"
        = none
       ∨ jget (ws.processBalanceData exBtcUsd [] "USD" [("BTC", 0)] [("BTC", 1/2)]).cache "BTC"
        = some 0) :=
  c3_cache_zeroing_on_reported_zero exBtcUsd [] "USD"
    (show (jkeys [("BTC", (0 : ℚ))]).Nodup by simp [jkeys])
    (show (jkeys [("BTC", (1/2 : ℚ))]).Nodup by simp [jkeys])
    (show jget [("BTC", (0 : ℚ))] "BTC" = some 0 from rfl)
    (by norm_num)
    (fun ps hps => Option.noConfusion hps)

/-! ## Alternate-exchange evaluation lemmas -/

theorem wsAltAttempt_eval {alt : AltExchange} {c base pair : String} {t : Ticker}
    (hload : alt.loadOk = true) (hm : findMarket alt.markets c base = some pair)
    (ht : alt.fetchTicker pair = some t) :
    ws.altAttempt alt c base
      = some (if invertFor base pair then invertOpt (tickerPrice t) else tickerPrice t) := by
  rw [ws.altAttempt, hload, if_pos rfl, hm]
  show (match alt.fetchTicker pair with
    | some t =>
      let pv := tickerPrice t
      some (if invertFor base pair then invertOpt pv else pv)
    | none => none)
    = some (if invertFor base pair then invertOpt (tickerPrice t) else tickerPrice t)
  rw [ht]

theorem restAltAttempt_eval {alt : AltExchange} {c base pair : String} {t : Ticker}
    (hload : alt.loadOk = true) (hm : findMarket alt.markets c base = some pair)
    (ht : alt.fetchTicker pair = some t) :
    rest.altAttempt alt c base = some (tickerPrice t) := by
  rw [rest.altAttempt, hload, if_pos rfl, hm]
  show (match alt.fetchTicker pair with
    | some t => some (tickerPrice t)
    | none => none) = some (tickerPrice t)
  rw [ht]

theorem wsAlt_cons_found {alt : AltExchange} {c base : String} {pv : Option ℚ}
    (h : ws.altAttempt alt c base = some pv) (tl : List AltExchange) :
    ws.fetchPriceFromAlternativeExchange (alt :: tl) c base = some pv := by
  rw [ws.fetchPriceFromAlternativeExchange, List.findSome?]
  rw [h]

theorem restAlt_cons_found {alt : AltExchange} {c base : String} {pv : Option ℚ}
    (h : rest.altAttempt alt c base = some pv) (tl : List AltExchange) :
    rest.fetchPriceFromAlternativeExchange (alt :: tl) c base = some pv := by
  rw [rest.fetchPriceFromAlternativeExchange, List.findSome?]
  rw [h]

/-- C6: when the matched candidate pair has the valuation currency (or
USD/USDT) as its numerator, the primary-exchange resolution inverts the
fetched ticker price before multiplying by the amount: the resolved
price is `1/q` and an amount `amt` values at `amt * (1/q)`. -/
theorem c6_price_inversion_on_primary (ex : Exchange) (alts : List AltExchange)
    {base c pair : String} {t : Ticker} {q : ℚ}
    (hm : findMarket ex.markets c base = some pair)
    (hinv : invertFor base pair = true)
    (ht : ex.fetchTicker pair = some t)
    (hq : tickerPrice t = some q) (hq0 : q ≠ 0) (hc : c ≠ base) :
    ws.resolveSpotPrice ex alts base c = some (1 / q)
    ∧ ∀ amt : ℚ, ws.spotBaseValue ex alts base c amt = some (amt * (1 / q)) := by
  have h1 := resolveSpotPrice_inverted ex alts hm hinv ht hq hq0
  exact ⟨h1, fun amt => spotBaseValue_of_price ex alts hc h1 amt⟩

/-- C6 witness: only `USD/ETH` exists with `last = 0.0004`; resolving
ETH in USD yields `2500` and 2 ETH values at `5000`. -/
theorem c6_witness :
    ws.resolveSpotPrice exUsdEth [] "USD" "ETH" = some 2500
    ∧ ws.spotBaseValue exUsdEth [] "USD" "ETH" 2 = some 5000 := by
  have hq : tickerPrice ⟨some (1/2500), none⟩ = some (1/2500) := by
    rw [tickerPrice]
    dsimp only
    rw [if_neg (by norm_num)]
  have h := c6_price_inversion_on_primary exUsdEth []
    (show findMarket exUsdEth.markets "ETH" "USD" = some "USD/ETH" from rfl)
    (show invertFor "USD" "USD/ETH" = true from rfl)
    (show exUsdEth.fetchTicker "USD/ETH" = some ⟨some (1/2500), none⟩ from rfl)
    hq (by norm_num) (by decide)
  constructor
  · rw [h.1]
    norm_num
  · rw [h.2 2]
    norm_num

/-- C7 counterexample: with a single alternate listing only `USD/ETH` at
`last = 1/2500`, the WS-variant alternate fetch returns the inverted
price `2500` but the REST-variant alternate fetch returns the raw
`1/2500` — so inversion does *not* happen "in every variant". -/
theorem c7_counterexample_rest_alt_no_inversion :
    ws.fetchPriceFromAlternativeExchange [altUsdEth] "ETH" "USD" = some (some 2500)
    ∧ rest.fetchPriceFromAlternativeExchange [altUsdEth] "ETH" "USD" = some (some (1/2500))
    ∧ (1/2500 : ℚ) ≠ 2500 := by
  have hq : tickerPrice ⟨some (1/2500), none⟩ = some (1/2500) := by
    rw [tickerPrice]
    dsimp only
    rw [if_neg (by norm_num)]
  have hm : findMarket altUsdEth.markets "ETH" "USD" = some "USD/ETH" := rfl
  have ht : altUsdEth.fetchTicker "USD/ETH" = some ⟨some (1/2500), none⟩ := rfl
  refine ⟨?_, ?_, by norm_num⟩
  · have h1 := wsAltAttempt_eval rfl hm ht
    rw [hq, show invertFor "USD" "USD/ETH" = true from rfl, if_pos rfl] at h1
    rw [wsAlt_cons_found h1 []]
    rw [invertOpt, Option.map_some']
    norm_num
  · have h1 := restAltAttempt_eval rfl hm ht
    rw [hq] at h1
    rw [restAlt_cons_found h1 []]

/-- C7 (amended): alternate price discovery scans the same candidate
list in the same fixed order; the WS/part_000 variant inverts the price
when the first matching pair has the valuation currency (or USD/USDT) as
numerator, but the REST variant returns the raw ticker price uninverted. -/
theorem c7_alt_inversion_ws_not_rest (alt : AltExchange) (tl : List AltExchange)
    {c base pair : String} {t : Ticker} {q : ℚ}
    (hload : alt.loadOk = true)
    (hm : findMarket alt.markets c base = some pair)
    (hinv : invertFor base pair = true)
    (ht : alt.fetchTicker pair = some t)
    (hq : tickerPrice t = some q) :
    ws.fetchPriceFromAlternativeExchange (alt :: tl) c base = some (some (1 / q))
    ∧ rest.fetchPriceFromAlternativeExchange (alt :: tl) c base = some (some q) := by
  constructor
  · have h1 := wsAltAttempt_eval hload hm ht
    rw [hq, hinv, if_pos rfl, invertOpt, Option.map_some'] at h1
    exact wsAlt_cons_found h1 tl
  · have h1 := restAltAttempt_eval hload hm ht
    rw [hq] at h1
    exact restAlt_cons_found h1 tl

/-- C7 witness: the amended claim applied to the concrete single-alternate
environment. -/
theorem c7_witness :
    ws.fetchPriceFromAlternativeExchange [altUsdEth] "ETH" "USD" = some (some (1/(1/2500)))
    ∧ rest.fetchPriceFromAlternativeExchange [altUsdEth] "ETH" "USD" = some (some (1/2500)) := by
  have hq : tickerPrice ⟨some (1/2500), none⟩ = some (1/2500) := by
    rw [tickerPrice]
    dsimp only
    rw [if_neg (by norm_num)]
  exact c7_alt_inversion_ws_not_rest altUsdEth [] rfl
    (show findMarket altUsdEth.markets "ETH" "USD" = some "USD/ETH" from rfl)
    (show invertFor "USD" "USD/ETH" = true from rfl)
    (show altUsdEth.fetchTicker "USD/ETH" = some ⟨some (1/2500), none⟩ from rfl)
    hq

/-- C8 counterexample: the REST variant has no dust rule for futures — a
position with `contracts = 10, unrealizedPnl = -0.005` appears in its
output with `baseValue = -0.005`, contradicting the claim for "every
variant". -/
theorem c8_counterexample_rest_keeps_dust_position :
    rest.processBalanceData exPosDust [] "USD" []
      = some ⟨[("XBT/USD:USD", ⟨"XBT/USD:USD", 10, -(1/200), .futures⟩)], -(1/200)⟩
    ∧ |(-(1/200) : ℚ)| < dustMin := by
  have hupnl : upnl posDust = -(1/200) := by
    rw [upnl]
    show (if (-(1/200) : ℚ) = 0 then 0 else (-(1/200) : ℚ)) = -(1/200)
    rw [if_neg (by norm_num)]
  have hc : posDust.contracts ≠ 0 := by norm_num [posDust]
  have hloop : rest.positionsLoop exPosDust [posDust] []
      = [("XBT/USD:USD", ⟨"XBT/USD:USD", 10, -(1/200), .futures⟩)] := by
    rw [restPositionsLoop_single exPosDust hc
      (show exPosDust.fetchTicker posDust.symbol = some ⟨some 1, none⟩ from rfl), hupnl]
    rfl
  constructor
  · rw [restProcess_some
      (show rest.spotLoop exPosDust [] "USD" (rest.reorderUSDC []) [] = some [] from rfl)]
    rw [restIncludePositions_some rfl rfl, hloop]
    have htot : totalOf [("XBT/USD:USD",
        (⟨"XBT/USD:USD", 10, -(1/200), .futures⟩ : Asset))] = -(1/200) := by
      rw [totalOf, totalLoop, totalLoop]
      norm_num
    rw [htot]
  · rw [dustMin, abs_of_neg] <;> norm_num

/-- C8 (amended): in the WS variants every futures-typed asset in the
output clears the 0.01 dust threshold (a position with
`|unrealizedPnl| < 0.01` is dropped), and in every variant a position
with `unrealizedPnl = -5.00` appears keyed by its symbol as
`{type: futures, amount: contracts, baseValue: -5.00}` — the base value
taken directly from the unrealized PnL; the REST variant performs no
dust filtering on positions. -/
theorem c8_futures_valuation (ex : Exchange) (alts : List AltExchange)
    (base : String) (s cache : JObj ℚ) {p : Position} {t : Ticker}
    (hhas : ex.hasFetchPositions = true)
    (hps : ex.fetchPositionsResult = some [p])
    (hc : p.contracts ≠ 0)
    (hmkt : ex.markets p.symbol = true)
    (ht : ex.fetchTicker p.symbol = some t)
    (hu : p.unrealizedPnl = some (-5)) :
    (∀ k a, jget (ws.processBalanceData ex alts base s cache).balances k = some a →
        a.type = .futures → dustMin ≤ |a.baseValue|)
    ∧ jget (ws.processBalanceData ex alts base s cache).balances p.symbol
        = some ⟨p.symbol, p.contracts, -5, .futures⟩
    ∧ ∀ r, rest.processBalanceData ex alts base s = some r →
        jget r.balances p.symbol = some ⟨p.symbol, p.contracts, -5, .futures⟩ := by
  have hupnl : upnl p = -5 := by
    rw [upnl, hu]
    show (if (-5 : ℚ) = 0 then 0 else (-5 : ℚ)) = -5
    rw [if_neg (by norm_num)]
  have hd : ¬ |upnl p| < dustMin := by
    rw [hupnl, dustMin, abs_of_neg (by norm_num : (-5 : ℚ) < 0)]
    norm_num
  refine ⟨?_, ?_, ?_⟩
  · intro k a hja _
    exact wsValuation_dust ex alts base _ k a hja
  · rw [wsProcess_eq]
    dsimp only
    rw [wsValuation_eq, wsIncludePositions_some hhas hps,
      wsPositionsLoop_single ex hc hmkt ht hd, hupnl, jget_jset_self]
  · intro r hr
    rw [rest.processBalanceData] at hr
    cases hl : rest.spotLoop ex alts base (rest.reorderUSDC s) [] with
    | none =>
      rw [hl] at hr
      exact Option.noConfusion hr
    | some a0 =>
      rw [hl] at hr
      rw [← Option.some_injective _ hr]
      dsimp only
      rw [restIncludePositions_some hhas hps, restPositionsLoop_single ex hc ht,
        hupnl, jget_jset_self]

/-- C8 witness: the amended claim applied to a concrete exchange
reporting one `-5.00` position. -/
theorem c8_witness :
    jget (ws.processBalanceData exPosNeg5 [] "USD" [] []).balances "XBT/USD:USD"
      = some ⟨"XBT/USD:USD", 10, -5, .futures⟩ := by
  have h := c8_futures_valuation exPosNeg5 [] "USD" [] [] rfl rfl
    (by norm_num [posNeg5]) rfl rfl rfl
  exact h.2.1

/-- C9: when every underlying balance fetch throws, `fetchCompleteBalance`
(both variants) degrades to the empty `{total: {}}` snapshot instead of
propagating; and processing that empty snapshot leaves the cache exactly
as it was, the published balances being the re-valuation of the unchanged
cache contents. -/
theorem c9_fetch_failure_degrades_to_empty (env : SnapshotEnv)
    (ex : Exchange) (alts : List AltExchange) (base : String) (cache : JObj ℚ)
    (hplain : env.fetchBalancePlain = none)
    (hswap : env.fetchBalanceSwap = none)
    (hcash : env.fetchBalanceCash = none)
    (haccts : env.fetchAccountsResult = none) :
    ws.fetchCompleteBalance env = []
    ∧ rest.fetchCompleteBalance env = []
    ∧ (ws.processBalanceData ex alts base [] cache).cache = cache
    ∧ (ws.processBalanceData ex alts base [] cache).balances
        = ws.valuation ex alts base cache := by
  refine ⟨?_, ?_, rfl, rfl⟩
  · simp only [ws.fetchCompleteBalance]
    by_cases h1 : env.id = "coinbase"
    · rw [if_pos h1, hplain, haccts]
      rfl
    · rw [if_neg h1]
      by_cases h2 : env.id = "gateio"
      · rw [if_pos h2, hswap]
        rfl
      · rw [if_neg h2, hplain]
        rfl
  · simp only [rest.fetchCompleteBalance]
    by_cases h1 : env.id = "coinbase"
    · rw [if_pos h1, hplain, hcash]
      rfl
    · rw [if_neg h1]
      by_cases h2 : env.id = "gateio"
      · rw [if_pos h2, hswap]
        rfl
      · rw [if_neg h2, hplain]
        rfl

/-- C9 witness: the theorem applied to an all-throwing snapshot
environment and a nonempty cache. -/
theorem c9_witness :
    ws.fetchCompleteBalance envFetchFail = []
    ∧ rest.fetchCompleteBalance envFetchFail = []
    ∧ (ws.processBalanceData exBare [] "USD" [] [("BTC", 1/2)]).cache = [("BTC", 1/2)]
    ∧ (ws.processBalanceData exBare [] "USD" [] [("BTC", 1/2)]).balances
        = ws.valuation exBare [] "USD" [("BTC", 1/2)] :=
  c9_fetch_failure_degrades_to_empty envFetchFail exBare [] "USD" [("BTC", 1/2)]
    rfl rfl rfl rfl

/-- C10: a connection is a supplementary "fund" account exactly when its
name ends in " Fund" and its defaultType is "swap"; a fund-account pass
attaches `spotBalance`/`earnBalance` to the group record (a non-fund pass
does not), the primary balances and total are unaffected by the
supplementary environment (so a throwing supplementary fetch cannot
disturb them), and each supplementary value defaults to 0 when its fetch
fails. -/
theorem c10_fund_account_supplementary (a : fund.Account)
    (fx fx' : fund.FundExchange) (alts : List AltExchange) (base : String)
    (s cache : JObj ℚ)
    (hcore : fx.core = fx'.core) (hdt : fx.defaultType = fx'.defaultType) :
    (fund.isFundAccount a = true
       ↔ strEndsWith a.n " Fund" = true ∧ a.defaultType = some "swap")
    ∧ ((fund.processBalanceData fx alts base s cache).balances
         = (fund.processBalanceData fx' alts base s cache).balances
       ∧ (fund.processBalanceData fx alts base s cache).total
         = (fund.processBalanceData fx' alts base s cache).total)
    ∧ (fx.isFundAccount = true →
         (fund.processBalanceData fx alts base s cache).spotBalance.isSome = true
         ∧ (fund.processBalanceData fx alts base s cache).earnBalance.isSome = true)
    ∧ (fx.isFundAccount = false →
         (fund.processBalanceData fx alts base s cache).spotBalance = none
         ∧ (fund.processBalanceData fx alts base s cache).earnBalance = none)
    ∧ (fx.isFundAccount = true → fx.spotFetchResult = none →
         (fund.processBalanceData fx alts base s cache).spotBalance = some 0)
    ∧ (fx.isFundAccount = true → fx.earnEnv.lendsResult = none →
         (fund.processBalanceData fx alts base s cache).earnBalance = some 0) := by
  have hprim : ∀ g : fund.FundExchange,
      (fund.processBalanceData g alts base s cache).balances
        = fund.includePositions g
            (ws.spotAssets g.core alts base (ws.updateCache cache s))
      ∧ (fund.processBalanceData g alts base s cache).total
        = totalOf (fund.includePositions g
            (ws.spotAssets g.core alts base (ws.updateCache cache s))) := by
    intro g
    by_cases hf : g.isFundAccount = true
    · simp only [fund.processBalanceData, hf, if_true]
      constructor <;> trivial
    · simp only [fund.processBalanceData]
      rw [if_neg hf]
      constructor <;> trivial
  have hinc : ∀ A, fund.includePositions fx A = fund.includePositions fx' A := by
    intro A
    rw [fund.includePositions, fund.includePositions, hcore, hdt]
  refine ⟨?_, ⟨?_, ?_⟩, ?_, ?_, ?_, ?_⟩
  · simp [fund.isFundAccount, Bool.and_eq_true, beq_iff_eq]
  · rw [(hprim fx).1, (hprim fx').1, hcore, hinc]
  · rw [(hprim fx).2, (hprim fx').2, hcore, hinc]
  · intro hf
    simp only [fund.processBalanceData, hf, if_true]
    constructor <;> trivial
  · intro hf
    simp only [fund.processBalanceData]
    rw [if_neg (by rw [hf]; exact Bool.false_ne_true)]
    constructor <;> trivial
  · intro hf hsp
    simp only [fund.processBalanceData, hf, if_true, hsp]
  · intro hf hlend
    have he : fund.fetchGateioEarnBalance fx.earnEnv = 0 := by
      rw [fund.fetchGateioEarnBalance, hlend]
      by_cases hl : fx.earnEnv.loadOk = true
      · rw [hl, if_pos rfl]
      · rw [if_neg hl]
    simp only [fund.processBalanceData, hf, if_true]
    by_cases hid : fx.id = "gateio"
    · rw [if_pos hid, he]
    · rw [if_neg hid]

/-- C10 witness: the theorem applied to a concrete fund account whose
supplementary fetches all fail, compared against the same connection with
working supplementary fetches. -/
theorem c10_witness :
    (fund.processBalanceData fxFundFail [] "USD" [] []).spotBalance = some 0
    ∧ (fund.processBalanceData fxFundFail [] "USD" [] []).earnBalance = some 0
    ∧ (fund.processBalanceData fxFundFail [] "USD" [] []).balances
        = (fund.processBalanceData fxFundOk [] "USD" [] []).balances := by
  have h := c10_fund_account_supplementary ⟨"Alpha Fund", some "swap"⟩
    fxFundFail fxFundOk [] "USD" [] [] rfl rfl
  exact ⟨h.2.2.2.2.1 rfl rfl, h.2.2.2.2.2 rfl rfl, h.2.1.1⟩

end Monitor
